import Mathlib

/-!
Formal model of the Polygon library (src/Polygon.js): closed 2D polygons with
boolean clipping, convex hull, simplification, mass-property integrals and
least-squares radial fitting.

Modelling conventions.
JavaScript numbers are IEEE doubles.  Two embeddings are used:

1.  Plain rationals.  Most routines are embedded over rationals, the
    exact-arithmetic idealization of doubles.  Divisions performed by the
    source under a guard that makes the divisor nonzero are embedded with
    rational division (which is total in Lean with x / 0 = 0; the guarded
    divisor is never zero, so the two semantics agree).

2.  JSNum = Option rationals for routines whose behaviour depends on
    non-finite doubles (NaN, plus/minus Infinity) or on the undefined value.
    The value none stands for any non-finite double or for undefined.
    Arithmetic propagates none; a comparison with none is false, exactly as
    every JavaScript comparison with NaN or undefined is false.  Division by
    zero yields none (in JavaScript it yields Infinity or NaN, both
    non-finite).  This conflation is exact for every computation below: no
    modelled trace ever turns a non-finite intermediate back into a finite
    value.

Lists model JavaScript arrays; the polygon stores its X and Y coordinate
arrays, which geometric routines zip into point lists exactly as the source
method toSet does.  The source polygon invariant (documented in the class
header) is that the vertex sequence is non-empty.
-/

set_option allowUnsafeReducibility true in
attribute [semireducible] Rat.add Rat.sub Rat.mul Rat.div Rat.neg Rat.inv
  Rat.normalize Rat.maybeNormalize Rat.divInt Rat.blt

/-- A vertex: x and y coordinate, as the exact-arithmetic model of doubles. -/
abbrev Pt : Type := ℚ × ℚ

/-- JavaScript number with a single absorbing non-finite value.  none models
NaN, plus/minus Infinity, and undefined, all of which compare false and
propagate through arithmetic in every trace modelled here. -/
abbrev JSNum : Type := Option ℚ

/-- Lift a total binary rational operation to JSNum, propagating none. -/
def jbin (f : ℚ → ℚ → ℚ) : JSNum → JSNum → JSNum
  | some a, some b => some (f a b)
  | _, _ => none

/-- JavaScript addition on JSNum. -/
def jadd : JSNum → JSNum → JSNum := jbin (· + ·)

/-- JavaScript subtraction on JSNum. -/
def jsub : JSNum → JSNum → JSNum := jbin (· - ·)

/-- JavaScript multiplication on JSNum. -/
def jmul : JSNum → JSNum → JSNum := jbin (· * ·)

/-- JavaScript division on JSNum: division by zero produces a non-finite
double (Infinity or NaN), modelled as none. -/
def jdiv : JSNum → JSNum → JSNum
  | some a, some b => if b = 0 then none else some (a / b)
  | _, _ => none

/-- JavaScript strict less-than on JSNum: any comparison involving NaN or
undefined is false. -/
def jlt : JSNum → JSNum → Bool
  | some a, some b => decide (a < b)
  | _, _ => false

/-- JavaScript less-or-equal on JSNum. -/
def jle : JSNum → JSNum → Bool
  | some a, some b => decide (a ≤ b)
  | _, _ => false

/-- Math.abs on JSNum. -/
def jabs : JSNum → JSNum
  | some a => some |a|
  | none => none

/-!  Polygon.prototype.inside (src/Polygon.js lines 1040-1055): ray-casting
parity test.  The loop visits index pairs (i, j) with j the cyclic
predecessor of i (j starts at length - 1).  The x-intercept division is
evaluated only under the strict straddle guard, which forces the divisor
Y[j] - Y[i] to be nonzero, so plain rational division is faithful. -/

/-- Polygon.prototype.inside: true when the query point (q.1, q.2) is inside
the polygon given by the vertex list v, by ray casting. -/
def inside (v : List Pt) (q : Pt) : Bool :=
  (List.range v.length).foldl
    (fun acc i =>
      let j := if i = 0 then v.length - 1 else i - 1
      let pi := v.getD i (0, 0)
      let pj := v.getD j (0, 0)
      if (decide (pi.2 > q.2) != decide (pj.2 > q.2)) &&
         decide (q.1 < pi.1 + (pj.1 - pi.1) * (q.2 - pi.2) / (pj.2 - pi.2))
      then !acc else acc)
    false

/-!  Polygon.prototype.union, steps (1) and (2) (src/Polygon.js lines
1256-1274).  Each step is a forward loop over the frozen initial length of
the polygon being trimmed, removing (Polygon.prototype.remove, i.e. a
splice of one element) the vertex at the loop index whenever it lies inside
the other polygon.  When the loop index runs past the current (shrunken)
length, the source reads undefined coordinates and the inside test is false
on them (every comparison with undefined is false), so no removal happens;
the model skips those indices, which is the same state transformation. -/

/-- One iteration of the trim loop of Polygon.prototype.union: test the
vertex at index i of the current list against the polygon clip and remove it
when it is inside. -/
def trimStep (clip : List Pt) (cur : List Pt) (i : ℕ) : List Pt :=
  if h : i < cur.length then
    if inside clip cur[i] then cur.eraseIdx i else cur
  else cur

/-- The full trim loop of Polygon.prototype.union: indices 0 to n-1 where n
is the length of subj before the loop starts (the source caches the length). -/
def trimAll (clip subj : List Pt) : List Pt :=
  (List.range subj.length).foldl (trimStep clip) subj

/-- Steps (1) and (2) of Polygon.prototype.union: trim the subject against
the clipper, then trim the clipper against the already-trimmed subject
(the source tests the clipper vertices with the mutated copy of this). -/
def unionTrim (subj clip : List Pt) : List Pt × List Pt :=
  let ts := trimAll clip subj
  (ts, trimAll ts clip)

/-!  Polygon.prototype.data (src/Polygon.js lines 719-817): Green-theorem
moments.  The helpers sum with JavaScript reduce (left fold, initial 0). -/

/-- Sum of a rational list, as the source reduce helper. -/
def qsum (l : List ℚ) : ℚ := l.foldl (· + ·) 0

/-- The source private diff helper: cyclic forward difference, with the
wrap-around difference first-minus-last pushed at the end.  On the empty
list the source would push NaN; the polygon invariant keeps lists nonempty. -/
def diffJS (l : List ℚ) : List ℚ :=
  (l.tail.zipWith (· - ·) l) ++ [l.headD 0 - l.getLastD 0]

/-- dot2 of the source: sum of elementwise products of two equal-length
lists. -/
def dot2 (a b : List ℚ) : ℚ := (a.zipWith (· * ·) b).foldl (· + ·) 0

/-- dot3 of the source. -/
def dot3 (a b c : List ℚ) : ℚ :=
  (List.zipWith3 (fun x y z => x * y * z) a b c).foldl (· + ·) 0

/-- dot4 of the source. -/
def dot4 (a b c d : List ℚ) : ℚ :=
  ((List.zipWith3 (fun x y z => x * y * z) a b c).zipWith (· * ·) d).foldl (· + ·) 0

/-- Arithmetic mean of a coordinate array (the locals xm, ym of data). -/
def meanQ (l : List ℚ) : ℚ := qsum l / (l.length : ℚ)

/-- Coordinates translated by their mean (the locals x, y of data). -/
def centerQ (l : List ℚ) : List ℚ := l.map (fun a => a - meanQ l)

/-- The raw signed area local A of data, before sign canonicalization.
Positive exactly for clockwise vertex order under the library convention. -/
def rawA (X Y : List ℚ) : ℚ :=
  let x := centerQ X
  let y := centerQ Y
  (dot2 y (diffJS x) - dot2 x (diffJS y)) / 2

/-- The raw first moment local Cx of data. -/
def rawCx (X Y : List ℚ) : ℚ :=
  let x := centerQ X
  let y := centerQ Y
  let dx := diffJS x
  let dy := diffJS y
  (6 * dot3 x y dx - 3 * dot3 x x dy + 3 * dot3 y dx dx + dot3 dx dx dy) / 12

/-- The raw first moment local Cy of data. -/
def rawCy (X Y : List ℚ) : ℚ :=
  let x := centerQ X
  let y := centerQ Y
  let dx := diffJS x
  let dy := diffJS y
  (3 * dot3 y y dx - 6 * dot3 x y dy - 3 * dot3 x dy dy - dot3 dx dy dy) / 12

/-- The raw second moment local Ixx of data. -/
def rawIxx (X Y : List ℚ) : ℚ :=
  let x := centerQ X
  let y := centerQ Y
  let dx := diffJS x
  let dy := diffJS y
  (2 * dot4 y y y dx - 6 * dot4 x y y dy - 6 * dot4 x y dy dy +
    -2 * dot4 x dy dy dy - 2 * dot4 y dx dy dy - dot4 dx dy dy dy) / 12

/-- The raw second moment local Iyy of data. -/
def rawIyy (X Y : List ℚ) : ℚ :=
  let x := centerQ X
  let y := centerQ Y
  let dx := diffJS x
  let dy := diffJS y
  (6 * dot4 x x y dx - 2 * dot4 x x x dy + 6 * dot4 x y dx dx +
    2 * dot4 y dx dx dx + 2 * dot4 x dx dx dy + dot4 dx dx dx dy) / 12

/-- The raw product moment local Ixy of data. -/
def rawIxy (X Y : List ℚ) : ℚ :=
  let x := centerQ X
  let y := centerQ Y
  let dx := diffJS x
  let dy := diffJS y
  (6 * dot4 x y y dx - 6 * dot4 x x y dy + 3 * dot4 y y dx dx +
    -3 * dot4 x x dy dy + 2 * dot4 y dx dx dy - 2 * dot4 x dx dy dy) / 24

/-- Sign canonicalization of data: when the raw signed area is negative the
source negates A, Cx, Cy, Ixx, Iyy, Ixy. -/
def canonA (X Y : List ℚ) : ℚ := if rawA X Y < 0 then -rawA X Y else rawA X Y

/-- Canonicalized first moment Cx (negated with the area sign). -/
def canonCx (X Y : List ℚ) : ℚ := if rawA X Y < 0 then -rawCx X Y else rawCx X Y

/-- Canonicalized first moment Cy. -/
def canonCy (X Y : List ℚ) : ℚ := if rawA X Y < 0 then -rawCy X Y else rawCy X Y

/-- Canonicalized second moment Ixx. -/
def canonIxx (X Y : List ℚ) : ℚ := if rawA X Y < 0 then -rawIxx X Y else rawIxx X Y

/-- Canonicalized second moment Iyy. -/
def canonIyy (X Y : List ℚ) : ℚ := if rawA X Y < 0 then -rawIyy X Y else rawIyy X Y

/-- Canonicalized product moment Ixy. -/
def canonIxy (X Y : List ℚ) : ℚ := if rawA X Y < 0 then -rawIxy X Y else rawIxy X Y

/-- The record returned by Polygon.prototype.data, without the perimeter
entry (the perimeter involves square roots and is modelled separately over
the reals; no algebraic field depends on it). -/
structure MomentData where
  A : ℚ
  Cx : ℚ
  Cy : ℚ
  Ixx : ℚ
  Iyy : ℚ
  Ixy : ℚ
  Iuu : ℚ
  Ivv : ℚ
  Iuv : ℚ
deriving Repr, DecidableEq

/-- Polygon.prototype.data: canonicalize the raw moments, derive centroidal
moments via the parallel-axis theorem, shift the centroid back by the vertex
mean, and re-globalize the second moments.  The Ixy output reproduces the
source line 813 exactly: it multiplies Iuv by A, Cx and Cy instead of adding
the parallel-axis term.  The divisions by A are performed by the source
without a zero guard; for a zero-area polygon the source returns NaN there,
while this rational model returns 0 (no theorem below evaluates data on a
zero-area polygon). -/
def polyData (X Y : List ℚ) : MomentData :=
  let A := canonA X Y
  let Cx0 := canonCx X Y
  let Cy0 := canonCy X Y
  let xc := Cx0 / A
  let yc := Cy0 / A
  let Iuu := canonIxx X Y - A * yc * yc
  let Ivv := canonIyy X Y - A * xc * xc
  let Iuv := canonIxy X Y - A * xc * yc
  let Cx := meanQ X + Cx0
  let Cy := meanQ Y + Cy0
  { A := A
    Cx := Cx
    Cy := Cy
    Ixx := Iuu + A * Cy * Cy
    Iyy := Ivv + A * Cx * Cx
    Ixy := Iuv * A * Cx * Cy
    Iuu := Iuu
    Ivv := Ivv
    Iuv := Iuv }

/-- The perimeter entry of Polygon.prototype.data: sum of the square roots
of dx squared plus dy squared over the cyclic differences.  Square roots are
irrational, so this lives over the reals; no claim depends on its value. -/
noncomputable def polyPerimeter (X Y : List ℚ) : ℝ :=
  (((diffJS (centerQ X)).zipWith
      (fun dx dy => Real.sqrt (((dx : ℝ)) ^ 2 + ((dy : ℝ)) ^ 2))
      (diffJS (centerQ Y))).foldl (· + ·) 0)

/-- Polygon.prototype.isClockWise (src/Polygon.js lines 1351-1365): the
signed cross sum over consecutive vertex pairs, omitting the closing edge
(the loop stops at size - 2), compared against zero. -/
def isClockWise (X Y : List ℚ) : Bool :=
  decide (((List.range (X.length - 1)).foldl
    (fun s i =>
      s + X.getD i 0 * Y.getD (i + 1) 0 - Y.getD i 0 * X.getD (i + 1) 0)
    0) < 0)

/-!  Polygon.prototype.intersect (src/Polygon.js lines 1167-1251):
Sutherland-Hodgman clipping.  The inner intersection helper divides by the
cross product of the two edge directions without a guard; it is only invoked
when the two endpoint classifications differ, and on every input evaluated
below that cross product is nonzero, where rational division coincides with
the double semantics. -/

/-- The in predicate of the clip helper: the point lies strictly on the
interior side of the directed clip edge from c1 to c2. -/
def clipIn (c1 c2 p : Pt) : Bool :=
  decide ((c2.1 - c1.1) * (p.2 - c1.2) > (c2.2 - c1.2) * (p.1 - c1.1))

/-- The line-line intersection helper nested in the clip function: meet of
the infinite lines through the clip edge (c1, c2) and the subject edge
(sp, ep). -/
def clipInterPoint (c1 c2 sp ep : Pt) : Pt :=
  let dcx := c1.1 - c2.1
  let dcy := c1.2 - c2.2
  let dpx := sp.1 - ep.1
  let dpy := sp.2 - ep.2
  let s := c1.1 * c2.2 - c1.2 * c2.1
  let t := sp.1 * ep.2 - sp.2 * ep.1
  let den := 1 / (dcx * dpy - dcy * dpx)
  ((s * dpx - t * dcx) * den, (s * dpy - t * dcy) * den)

/-- One pass of the Sutherland-Hodgman loop: clip the current vertex list
against the single clip edge from c1 to c2.  The running start point begins
at the last vertex of the input list; an empty input stays empty (the source
reads an undefined start point and iterates zero times). -/
def clipEdge (c1 c2 : Pt) (input : List Pt) : List Pt :=
  match input.getLast? with
  | none => []
  | some lastPt =>
    (input.foldl
      (fun (acc : List Pt × Pt) ep =>
        let out := acc.1
        let sp := acc.2
        let out2 :=
          if clipIn c1 c2 ep then
            if !clipIn c1 c2 sp then out ++ [clipInterPoint c1 c2 sp ep, ep]
            else out ++ [ep]
          else if clipIn c1 c2 sp then out ++ [clipInterPoint c1 c2 sp ep]
          else out
        (out2, ep))
      ([], lastPt)).1

/-- The clip function of Polygon.prototype.intersect: fold the clipped list
through every clip edge, the first edge closing from the last clipper vertex
to the first. -/
def clipSH (clipped clipper : List Pt) : List Pt :=
  match clipper.getLast? with
  | none => clipped
  | some c0 =>
    (clipper.foldl (fun (acc : List Pt × Pt) c2 =>
        (clipEdge acc.2 c2 acc.1, c2)) (clipped, c0)).1

/-- Polygon.prototype.intersect at the vertex level: the source converts
both polygons to point sets with toSet, clips, and wraps the result in a new
Polygon. -/
def intersectPts (subj clipper : List Pt) : List Pt := clipSH subj clipper

/-!  The lineLineInter helper of Polygon.prototype.lineIntersect
(src/Polygon.js lines 1118-1129).  The reciprocal of the determinant is
computed unconditionally; when the determinant is zero the double result is
Infinity or NaN, after which both parameters are non-finite and every range
comparison on them is false.  JSNum models this: the division by zero gives
none and comparisons with none are false.  Note that the source computes
s2x as x2 of line 2 minus x1 of line 1 (line 1121), mixing the two lines;
the model reproduces that expression verbatim. -/

/-- The determinant whose reciprocal the lineLineInter helper computes. -/
def lineDet (x1l1 y1l1 x2l1 y2l1 x1l2 y1l2 x2l2 y2l2 : ℚ) : ℚ :=
  let s1x := x2l1 - x1l1
  let s1y := y2l1 - y1l1
  let s2x := x2l2 - x1l1
  let s2y := y2l2 - y1l2
  let d := -s2x * s1y + s1x * s2y
  d

/-- The den local of the lineLineInter helper: the reciprocal of the
determinant, computed by an unguarded division (non-finite when the
determinant is zero). -/
def lineLineInterDen (x1l1 y1l1 x2l1 y2l1 x1l2 y1l2 x2l2 y2l2 : ℚ) : JSNum :=
  jdiv (some 1) (some (lineDet x1l1 y1l1 x2l1 y2l1 x1l2 y1l2 x2l2 y2l2))

/-- The lineLineInter helper of Polygon.prototype.lineIntersect: some point
when both parameters lie in the unit interval (the FLAG true case of the
source), none otherwise (the source returns FLAG false with empty X and Y,
and the caller pushes nothing). -/
def lineLineInter (x1l1 y1l1 x2l1 y2l1 x1l2 y1l2 x2l2 y2l2 : ℚ) : Option Pt :=
  let s1x := x2l1 - x1l1
  let s1y := y2l1 - y1l1
  let s2x := x2l2 - x1l1
  let s2y := y2l2 - y1l2
  let den := lineLineInterDen x1l1 y1l1 x2l1 y2l1 x1l2 y1l2 x2l2 y2l2
  let s := jmul (some (-s1y * (x1l1 - x1l2) + s1x * (y1l1 - y1l2))) den
  let t := jmul (some (s2x * (y1l1 - y1l2) - s2y * (x1l1 - x1l2))) den
  if jle (some 0) s && jle s (some 1) && jle (some 0) t && jle t (some 1) then
    match t with
    | some tv => some (x1l1 + tv * s1x, y1l1 + tv * s1y)
    | none => none
  else none

/-!  Polygon.prototype.convexHull (src/Polygon.js lines 1762-1829),
gift wrapping. -/

/-- The cross helper of convexHull: true when point 3 lies clockwise of the
directed segment from point 1 to point 2. -/
def hullCross (p1 p2 p3 : Pt) : Bool :=
  decide ((p2.1 - p1.1) * (p3.2 - p1.2) - (p2.2 - p1.2) * (p3.1 - p1.1) < 0)

/-- The value the leftBottom helper reads for this.accuracy.  leftBottom is
declared as a plain function and invoked as one, so inside it this is not
the polygon instance: the property read yields undefined, modelled as none.
Consequently the tie-break comparison below is always false. -/
def leftBottomAccuracy : JSNum := none

/-- The leftBottom helper of convexHull: index of the starting vertex.  The
strict minimum-x test updates the index; the minimum-y tie-break guard
compares against the undefined accuracy and never fires. -/
def leftBottom (v : List Pt) : ℕ :=
  (List.range' 1 (v.length - 1)).foldl
    (fun idx i =>
      let pi := v.getD i (0, 0)
      let pc := v.getD idx (0, 0)
      if decide (pi.1 < pc.1) ||
         (jlt (jabs (some (pi.1 - pc.1))) leftBottomAccuracy &&
          decide (pi.2 < pc.2))
      then i else idx)
    0

/-- The inner candidate scan of the convexHull do-while body: starting from
candidate 0, advance to i whenever the current hull index equals the
candidate or i is clockwise of the segment (hull, candidate). -/
def hullNext (v : List Pt) (hull : ℕ) : ℕ :=
  (List.range' 1 (v.length - 1)).foldl
    (fun ie i =>
      if hull == ie ||
         hullCross (v.getD hull (0, 0)) (v.getD ie (0, 0)) (v.getD i (0, 0))
      then i else ie)
    0

/-- The do-while loop of convexHull: emit the current vertex, advance to the
selected candidate, stop when the candidate is the starting index.  The
source loop has no iteration bound and need not terminate on adversarial
input, so the model carries explicit fuel; every theorem below supplies fuel
large enough that the loop exits on its own. -/
def hullGo (v : List Pt) (start : ℕ) : ℕ → ℕ → List Pt
  | 0, _ => []
  | fuel + 1, hull =>
    v.getD hull (0, 0) ::
      (let nxt := hullNext v hull
       if nxt = start then [] else hullGo v start fuel nxt)

/-- Polygon.prototype.convexHull: the emitted hull vertex sequence (the
source returns it as two coordinate arrays). -/
def convexHullPts (v : List Pt) (fuel : ℕ) : List Pt :=
  hullGo v (leftBottom v) fuel (leftBottom v)

/-!  Polygon.prototype.sortCW (src/Polygon.js lines 603-646). -/

/-- The fast four-quadrant arctangent approximation nested in sortCW.  The
initial division is unguarded: for a vertex whose x equals the mean x the
double argument is infinite and the rational function of it evaluates to
NaN, modelled by none propagation. -/
def atan2JS (y x : JSNum) : JSNum :=
  let arg := jdiv y x
  let arg2 := jmul arg arg
  let arg3 := jmul arg2 arg
  jdiv (jmul (some (1570796326794897 / 10 ^ 15))
        (jadd (jadd arg3 arg2) (jmul (some (640388203202208 / 10 ^ 15)) arg)))
       (jadd (jadd arg3 (jmul (some (1640388203202208 / 10 ^ 15)) (jadd arg2 arg)))
        (some 1))

/-- The comparator of the sortCW angle sort, as consumed by a stable sort:
keep a before b when the comparator value angle of a minus angle of b is
nonpositive.  When the difference is NaN the ECMAScript SortCompare treats
it as zero, i.e. a tie, which a stable sort resolves by keeping the original
order; hence none maps to true. -/
def sortCWle (a b : JSNum × Pt) : Bool :=
  match jsub a.1 b.1 with
  | some d => decide (d ≤ 0)
  | none => true

/-- Polygon.prototype.sortCW: zip each vertex with its approximate angle
about the coordinate mean, sort stably by angle, and unzip.  The ECMAScript
sort is required to produce a permutation of the array even when the
comparator is inconsistent; the model uses a stable merge sort, which has
exactly that property. -/
def sortCW (v : List Pt) : List Pt :=
  let n := v.length
  let xm := jdiv (some (qsum (v.map (·.1)))) (some (n : ℚ))
  let ym := jdiv (some (qsum (v.map (·.2)))) (some (n : ℚ))
  let zipped := v.map (fun p =>
    (atan2JS (jsub (some p.2) ym) (jsub (some p.1) xm), p))
  (zipped.mergeSort sortCWle).map (·.2)

/-!  The gaussElimination helper of Polygon.prototype.radialFit
(src/Polygon.js lines 1630-1679), over JSNum: the eliminations and the back
substitution divide by the current pivot without any singularity check, so a
zero pivot floods the affected entries with non-finite values that are
returned to the caller unreported. -/

/-- Matrix entry read; out-of-range reads yield undefined in JavaScript,
modelled as none (never exercised on the square systems below). -/
def mget (m : List (List JSNum)) (i j : ℕ) : JSNum := (m.getD i []).getD j none

/-- Matrix entry write. -/
def mset (m : List (List JSNum)) (i j : ℕ) (v : JSNum) : List (List JSNum) :=
  m.set i ((m.getD i []).set j v)

/-- The concat helper of radialFit: append the right-hand side as a final
column. -/
def concatCol (A : List (List JSNum)) (B : List JSNum) : List (List JSNum) :=
  A.zipWith (fun row b => row ++ [b]) B

/-- The partial-pivot scan of gaussElimination: scan k from i+1 below the
column bound, replacing the pivot whenever the current pivot is less than
the absolute value of the candidate (the source compares against the
absolute value but stores the signed entry, and the scan bound is the column
count, exactly as in the source). -/
def pivotRow (AB : List (List JSNum)) (i cols : ℕ) : ℕ :=
  ((List.range' (i + 1) (cols - (i + 1))).foldl
    (fun (acc : JSNum × ℕ) k =>
      if jlt acc.1 (jabs (mget AB k i)) then (mget AB k i, k) else acc)
    (mget AB i i, i)).2

/-- The row swap of gaussElimination: exchange rows i and j entry by entry
over the augmented width. -/
def swapRows (AB : List (List JSNum)) (i j abCols : ℕ) : List (List JSNum) :=
  (List.range abCols).foldl
    (fun m k =>
      let t := mget m i k
      mset (mset m i k (mget m j k)) j k t)
    AB

/-- Nullify the entry below the pivot in row j2 using pivot row i: the
factor is an unguarded division by the pivot. -/
def elimRow (AB : List (List JSNum)) (i j2 abCols : ℕ) : List (List JSNum) :=
  let fac := jdiv (mget AB j2 i) (mget AB i i)
  (List.range' i (abCols - i)).foldl
    (fun m k => mset m j2 k (jsub (mget m j2 k) (jmul fac (mget m i k)))) AB

/-- One forward-elimination step of gaussElimination. -/
def forwardStep (AB : List (List JSNum)) (i rows cols abCols : ℕ) :
    List (List JSNum) :=
  let j := pivotRow AB i cols
  let AB1 := swapRows AB i j abCols
  (List.range' (i + 1) (rows - (i + 1))).foldl
    (fun m j2 => elimRow m i j2 abCols) AB1

/-- The gaussElimination helper of radialFit: forward elimination with
partial pivoting followed by back substitution.  Its return type carries no
failure indication; on a singular system the unguarded pivot divisions
produce non-finite entries that propagate into the returned vector. -/
def gaussElimination (A : List (List JSNum)) (B : List JSNum) : List JSNum :=
  let cols := (A.getD 0 []).length
  let rows := A.length
  let AB0 := concatCol A B
  let abCols := (AB0.getD 0 []).length
  let ABf := (List.range rows).foldl
    (fun m i => forwardStep m i rows cols abCols) AB0
  ((List.range cols).reverse.foldl
    (fun (acc : List (List JSNum) × List JSNum) i =>
      let temp := jdiv (mget acc.1 i cols) (mget acc.1 i i)
      let out2 := acc.2.set i temp
      let m2 := (List.range i).reverse.foldl
        (fun mm j => mset mm j cols (jsub (mget mm j cols) (jmul (mget mm j i) temp)))
        acc.1
      (m2, out2))
    (ABf, List.replicate cols none)).2

/-- The linear system built by the fitCircle branch of radialFit: one row
x, y, 1 per point. -/
def circleRows (pts : List Pt) : List (List JSNum) :=
  pts.map (fun p => [some p.1, some p.2, some 1])

/-- The right-hand side built by the fitCircle branch of radialFit. -/
def circleRhs (pts : List Pt) : List JSNum :=
  pts.map (fun p => some (-(p.1 * p.1 + p.2 * p.2)))

/-- Negation on JSNum. -/
def jneg : JSNum → JSNum
  | some a => some (-a)
  | none => none

/-- The solve of the fitCircle branch of radialFit (the case CIRCLE of the
dispatch, and the default case). -/
def fitCircleSolve (pts : List Pt) : List JSNum :=
  gaussElimination (circleRows pts) (circleRhs pts)

/-- The fitted circle centre returned by the fitCircle branch: minus half of
each of the first two solution components.  The third output of the source
is the square root of a combination of the solution entries; on the inputs
below that combination is already non-finite, and the square root of a
non-finite double is non-finite. -/
def fitCircleCenter (pts : List Pt) : JSNum × JSNum :=
  let X := fitCircleSolve pts
  (jdiv (jneg (X.getD 0 none)) (some 2), jdiv (jneg (X.getD 1 none)) (some 2))

/-!  Polygon.prototype.simplify (src/Polygon.js lines 896-1034): radial
pre-filter followed by recursive Douglas-Peucker splitting.  All arithmetic
is on squared distances, hence exact over the rationals. -/

/-- The diff2vec helper of simplify. -/
def diff2vec (a b : Pt) : Pt := (a.1 - b.1, a.2 - b.2)

/-- The dot2vec helper of simplify. -/
def dot2vec (a b : Pt) : ℚ := a.1 * b.1 + a.2 * b.2

/-- The mag2vec helper of simplify. -/
def mag2vec (a : Pt) : ℚ := a.1 * a.1 + a.2 * a.2

/-- The magDiff2vec helper of simplify: squared distance of two points. -/
def magDiff2vec (a b : Pt) : ℚ := mag2vec (diff2vec a b)

/-- The squared distance from point p to the segment from a to b computed in
the scan loop of the reduce helper: squared distance to the nearer endpoint
when the projection parameter falls outside the segment, otherwise the
squared perpendicular distance via the projection foot.  The division by the
squared segment length happens only in the branch where it is provably
nonzero (the dot product is positive there and bounded by it). -/
def segDist (a b p : Pt) : ℚ :=
  let direction := diff2vec b a
  let len2 := mag2vec direction
  let w := diff2vec p a
  let dt := dot2vec w direction
  if dt ≤ 0 then magDiff2vec p a
  else if len2 ≤ dt then magDiff2vec p b
  else
    let proj := dt / len2
    magDiff2vec p (a.1 + proj * direction.1, a.2 + proj * direction.2)

/-- The maximum-distance scan of the reduce helper, over an explicit index
list: keep the incumbent on a tie or decrease (the source continues when the
distance does not exceed the recorded maximum), else record the new index
and distance. -/
def fmGo (a b : Pt) (c : List Pt) : List ℕ → ℕ × ℚ → ℕ × ℚ
  | [], acc => acc
  | i :: rest, acc =>
    let d := segDist a b (c.getD i (0, 0))
    if d ≤ acc.2 then fmGo a b c rest acc else fmGo a b c rest (i, d)

/-- The maximum-distance scan of the reduce helper over the open chain
interval from s+1 to e-1, started at index s with recorded maximum 0. -/
def findMax (c : List Pt) (s e : ℕ) : ℕ × ℚ :=
  fmGo (c.getD s (0, 0)) (c.getD e (0, 0)) c (List.range' (s + 1) (e - (s + 1))) (s, 0)

theorem fmGo_eq_or_mem (a b : Pt) (c : List Pt) (l : List ℕ) (acc : ℕ × ℚ) :
    fmGo a b c l acc = acc ∨
      ((fmGo a b c l acc).1 ∈ l ∧ acc.2 < (fmGo a b c l acc).2) := by
  induction l generalizing acc with
  | nil => exact Or.inl rfl
  | cons i rest ih =>
    simp only [fmGo]
    by_cases hd : segDist a b (c.getD i (0, 0)) ≤ acc.2
    · simp only [hd, if_pos]
      rcases ih acc with h | h
      · exact Or.inl h
      · exact Or.inr ⟨List.mem_cons_of_mem _ h.1, h.2⟩
    · simp only [hd, if_neg, not_false_iff]
      rcases ih (i, segDist a b (c.getD i (0, 0))) with h | h
      · refine Or.inr ⟨?_, ?_⟩
        · rw [h]; exact List.mem_cons_self _ _
        · rw [h]; exact lt_of_not_le hd
      · refine Or.inr ⟨List.mem_cons_of_mem _ h.1, ?_⟩
        exact lt_trans (lt_of_not_le hd) h.2

theorem findMax_pos_bounds (c : List Pt) (s e : ℕ) (t : ℚ)
    (h : t * t < (findMax c s e).2) : s < (findMax c s e).1 ∧ (findMax c s e).1 < e := by
  have ht : (0 : ℚ) ≤ t * t := mul_self_nonneg t
  rcases fmGo_eq_or_mem (c.getD s (0, 0)) (c.getD e (0, 0)) c
      (List.range' (s + 1) (e - (s + 1))) (s, 0) with heq | hmem
  · exfalso
    have : (findMax c s e).2 = 0 := by
      unfold findMax
      rw [heq]
    rw [this] at h
    exact absurd (lt_of_le_of_lt ht h) (lt_irrefl 0)
  · have hm : (findMax c s e).1 ∈ List.range' (s + 1) (e - (s + 1)) := hmem.1
    rw [List.mem_range'_1] at hm
    omega

/-- The recursive reduce helper of simplify: when the sub-chain from s to e
has interior vertices and the maximal squared distance to the chord exceeds
the squared tolerance, mark the maximizing index and recurse on both halves
(left half first, exactly as the source), else mark nothing.  The source
squares the tolerance on entry (its local tol is the square). -/
def reduce (t : ℚ) (c : List Pt) (s e : ℕ) (key : Finset ℕ) : Finset ℕ :=
  if e ≤ s + 1 then key
  else
    if h : t * t < (findMax c s e).2 then
      reduce t c (findMax c s e).1 e (reduce t c s (findMax c s e).1 (insert (findMax c s e).1 key))
    else key
termination_by e - s
decreasing_by
  · have := findMax_pos_bounds c s e t h
    omega
  · have := findMax_pos_bounds c s e t h
    omega

/-- The radial pre-filter loop of simplify, after the first vertex: drop a
vertex whose squared distance to the last kept vertex is below the squared
tolerance, keep it otherwise.  The boolean records whether the final input
vertex was kept (the source tests whether its index j of the last kept
vertex reached size - 1). -/
def rfGo (tol2 : ℚ) (lastKept : Pt) : List Pt → List Pt × Bool
  | [] => ([], true)
  | [p] => if magDiff2vec p lastKept < tol2 then ([], false) else ([p], true)
  | p :: q :: rest =>
    if magDiff2vec p lastKept < tol2 then rfGo tol2 lastKept (q :: rest)
    else
      let r := rfGo tol2 p (q :: rest)
      (p :: r.1, r.2)

/-- The radial pre-filter of simplify: always keep the first vertex; when
the final input vertex was dropped, force the original last vertex back so
that endpoints are preserved. -/
def rfilter (tol2 : ℚ) : List Pt → List Pt
  | [] => []
  | v0 :: rest =>
    let r := rfGo tol2 v0 rest
    if r.2 then v0 :: r.1
    else v0 :: r.1 ++ [(v0 :: rest).getLast (List.cons_ne_nil v0 rest)]

/-- Polygon.prototype.simplify: radial pre-filter with the squared
tolerance, then the recursive split seeded with both endpoint keys, then
extraction of the marked vertices in order.  On the empty polygon the
source dereferences an undefined vertex and throws; the class invariant
keeps polygons nonempty, and every theorem below assumes a nonempty vertex
list. -/
def simplify (t : ℚ) (v : List Pt) : List Pt :=
  let c := rfilter (t * t) v
  let k := c.length
  let key := reduce t c 0 (k - 1) ({0, k - 1} : Finset ℕ)
  (List.range k).filterMap (fun i => if i ∈ key then some (c.getD i (0, 0)) else none)

/-!  Supporting lemmas. -/

theorem eraseIdx_append_cons (P : List Pt) (x : Pt) (R : List Pt) :
    (P ++ x :: R).eraseIdx P.length = P ++ R := by
  induction P with
  | nil => rfl
  | cons a P ih => simpa [List.eraseIdx] using ih

theorem trimStep_len_le (clip cur : List Pt) (i : ℕ) :
    (trimStep clip cur i).length ≤ cur.length := by
  unfold trimStep
  split
  · split
    · rw [List.length_eraseIdx]
      split <;> omega
    · exact le_rfl
  · exact le_rfl

theorem foldl_trimStep_len_le (clip : List Pt) (l : List ℕ) :
    ∀ cur : List Pt, (l.foldl (trimStep clip) cur).length ≤ cur.length := by
  induction l with
  | nil => intro cur; exact le_rfl
  | cons i l ih =>
    intro cur
    exact le_trans (ih (trimStep clip cur i)) (trimStep_len_le clip cur i)

theorem trimStep_inv (clip : List Pt) (i : ℕ) (P R : List Pt)
    (hP : ∀ p ∈ P, inside clip p = false)
    (hR : List.Chain' (fun a b => inside clip a = true → inside clip b = false) R)
    (hlen : P.length = i ∨ (R = [] ∧ P.length ≤ i)) :
    ∃ P2 R2, trimStep clip (P ++ R) i = P2 ++ R2 ∧
      (∀ p ∈ P2, inside clip p = false) ∧
      List.Chain' (fun a b => inside clip a = true → inside clip b = false) R2 ∧
      (P2.length = i + 1 ∨ (R2 = [] ∧ P2.length ≤ i + 1)) := by
  rcases hlen with hPi | ⟨hRnil, hPle⟩
  · cases R with
    | nil =>
      refine ⟨P, [], ?_, hP, List.chain'_nil, Or.inr ⟨rfl, by omega⟩⟩
      unfold trimStep
      rw [List.append_nil]
      split
      · next hlt => omega
      · rfl
    | cons r R2 =>
      have hilt : i < (P ++ r :: R2).length := by
        rw [List.length_append, List.length_cons]; omega
      have hget : (P ++ r :: R2)[i] = r := by
        subst hPi
        rw [List.getElem_append_right (le_refl P.length)]
        simp
      by_cases hin : inside clip r = true
      · have herase : trimStep clip (P ++ r :: R2) i = P ++ R2 := by
          unfold trimStep
          rw [dif_pos hilt, hget, if_pos hin, ← hPi, eraseIdx_append_cons]
        cases R2 with
        | nil =>
          exact ⟨P, [], by simpa using herase, hP, List.chain'_nil,
            Or.inr ⟨rfl, by omega⟩⟩
        | cons r2 R3 =>
          have hrel := (List.chain'_cons.mp hR).1
          have hr2 : inside clip r2 = false := hrel hin
          refine ⟨P ++ [r2], R3, ?_, ?_, ?_, Or.inl ?_⟩
          · rw [herase, List.append_assoc]; rfl
          · intro p hp
            rcases List.mem_append.mp hp with h | h
            · exact hP p h
            · rw [List.mem_singleton.mp h]; exact hr2
          · exact ((List.chain'_cons.mp hR).2).tail
          · rw [List.length_append, List.length_singleton]; omega
      · have hkeep : trimStep clip (P ++ r :: R2) i = P ++ r :: R2 := by
          unfold trimStep
          rw [dif_pos hilt, hget, if_neg hin]
        refine ⟨P ++ [r], R2, ?_, ?_, hR.tail, Or.inl ?_⟩
        · rw [hkeep, List.append_assoc]; rfl
        · intro p hp
          rcases List.mem_append.mp hp with h | h
          · exact hP p h
          · rw [List.mem_singleton.mp h]
            exact Bool.eq_false_iff.mpr hin
        · rw [List.length_append, List.length_singleton]; omega
  · subst hRnil
    refine ⟨P, [], ?_, hP, List.chain'_nil, Or.inr ⟨rfl, by omega⟩⟩
    unfold trimStep
    rw [List.append_nil]
    split
    · next hlt => omega
    · rfl

theorem trim_fold_inv (clip : List Pt) :
    ∀ (m i : ℕ) (P R : List Pt),
      (∀ p ∈ P, inside clip p = false) →
      List.Chain' (fun a b => inside clip a = true → inside clip b = false) R →
      (P.length = i ∨ (R = [] ∧ P.length ≤ i)) →
      ∃ P2 R2, (List.range' i m).foldl (trimStep clip) (P ++ R) = P2 ++ R2 ∧
        (∀ p ∈ P2, inside clip p = false) ∧
        (P2.length = i + m ∨ (R2 = [] ∧ P2.length ≤ i + m)) := by
  intro m
  induction m with
  | zero =>
    intro i P R hP hR hlen
    exact ⟨P, R, by simp, hP, by simpa using hlen⟩
  | succ m ih =>
    intro i P R hP hR hlen
    obtain ⟨P2, R2, hstep, hP2, hR2, hlen2⟩ := trimStep_inv clip i P R hP hR hlen
    obtain ⟨P3, R3, hfold, hP3, hlen3⟩ := ih (i + 1) P2 R2 hP2 hR2 hlen2
    refine ⟨P3, R3, ?_, hP3, ?_⟩
    · rw [List.range'_succ, List.foldl_cons, hstep, hfold]
    · rcases hlen3 with h | ⟨hnil, hle⟩
      · exact Or.inl (by omega)
      · exact Or.inr ⟨hnil, by omega⟩

theorem trimAll_not_inside (clip v : List Pt)
    (h : List.Chain' (fun a b => inside clip a = true → inside clip b = false) v) :
    ∀ p ∈ trimAll clip v, inside clip p = false := by
  obtain ⟨P2, R2, heq, hP2, hlen2⟩ :=
    trim_fold_inv clip v.length 0 [] v (by simp) h (Or.inl rfl)
  have htrim : trimAll clip v = P2 ++ R2 := by
    rw [trimAll, List.range_eq_range']
    simpa using heq
  have hlenle : (trimAll clip v).length ≤ v.length := by
    rw [trimAll]
    exact foldl_trimStep_len_le clip _ v
  rcases hlen2 with hl | ⟨hnil, _⟩
  · have : R2 = [] := by
      rw [htrim] at hlenle
      rw [List.length_append] at hlenle
      have : R2.length = 0 := by omega
      exact List.length_eq_zero.mp this
    subst this
    rw [htrim, List.append_nil]
    exact hP2
  · subst hnil
    rw [htrim, List.append_nil]
    exact hP2


/-!  Idempotence of Polygon.prototype.simplify: supporting development. -/

theorem magDiff2vec_comm (a b : Pt) : magDiff2vec a b = magDiff2vec b a := by
  unfold magDiff2vec mag2vec diff2vec
  ring

theorem magDiff2vec_nonneg (a b : Pt) : 0 ≤ magDiff2vec a b := by
  unfold magDiff2vec mag2vec diff2vec
  dsimp only
  nlinarith [mul_self_nonneg (a.1 - b.1), mul_self_nonneg (a.2 - b.2)]

theorem mag2vec_diff_nonneg (a b : Pt) : 0 ≤ mag2vec (diff2vec b a) := by
  unfold mag2vec diff2vec
  dsimp only
  nlinarith [mul_self_nonneg (b.1 - a.1), mul_self_nonneg (b.2 - a.2)]

theorem segDist_le_left (a b p : Pt) : segDist a b p ≤ magDiff2vec p a := by
  unfold segDist
  dsimp only
  split
  · exact le_rfl
  · next hdt =>
    split
    · next hlen =>
      have hdt2 : 0 < dot2vec (diff2vec p a) (diff2vec b a) := lt_of_not_le hdt
      have hid : magDiff2vec p b =
          magDiff2vec p a - 2 * dot2vec (diff2vec p a) (diff2vec b a) +
            mag2vec (diff2vec b a) := by
        unfold magDiff2vec mag2vec diff2vec dot2vec
        dsimp only
        ring
      linarith
    · next hlen =>
      have hdt2 : 0 < dot2vec (diff2vec p a) (diff2vec b a) := lt_of_not_le hdt
      have hlen2 : dot2vec (diff2vec p a) (diff2vec b a) < mag2vec (diff2vec b a) :=
        lt_of_not_le hlen
      have hlpos : 0 < mag2vec (diff2vec b a) := lt_trans hdt2 hlen2
      have hdtr : dot2vec (diff2vec p a) (diff2vec b a) =
          dot2vec (diff2vec p a) (diff2vec b a) / mag2vec (diff2vec b a) *
            mag2vec (diff2vec b a) :=
        (div_mul_cancel₀ _ (ne_of_gt hlpos)).symm
      generalize hgen :
        dot2vec (diff2vec p a) (diff2vec b a) / mag2vec (diff2vec b a) = r at *
      have h2 : r * dot2vec (diff2vec p a) (diff2vec b a) =
          r * r * mag2vec (diff2vec b a) := by rw [hdtr]; ring
      have h3 : 0 ≤ r * r * mag2vec (diff2vec b a) :=
        mul_nonneg (mul_self_nonneg r) hlpos.le
      unfold magDiff2vec mag2vec diff2vec dot2vec at *
      dsimp only at *
      nlinarith [h2, h3]

theorem segDist_le_right (a b p : Pt) : segDist a b p ≤ magDiff2vec p b := by
  unfold segDist
  dsimp only
  split
  · next hdt =>
    have hid : magDiff2vec p b =
        magDiff2vec p a - 2 * dot2vec (diff2vec p a) (diff2vec b a) +
          mag2vec (diff2vec b a) := by
      unfold magDiff2vec mag2vec diff2vec dot2vec
      dsimp only
      ring
    have hlnn := mag2vec_diff_nonneg a b
    linarith
  · next hdt =>
    split
    · exact le_rfl
    · next hlen =>
      have hdt2 : 0 < dot2vec (diff2vec p a) (diff2vec b a) := lt_of_not_le hdt
      have hlen2 : dot2vec (diff2vec p a) (diff2vec b a) < mag2vec (diff2vec b a) :=
        lt_of_not_le hlen
      have hlpos : 0 < mag2vec (diff2vec b a) := lt_trans hdt2 hlen2
      have hdtr : dot2vec (diff2vec p a) (diff2vec b a) =
          dot2vec (diff2vec p a) (diff2vec b a) / mag2vec (diff2vec b a) *
            mag2vec (diff2vec b a) :=
        (div_mul_cancel₀ _ (ne_of_gt hlpos)).symm
      generalize hgen :
        dot2vec (diff2vec p a) (diff2vec b a) / mag2vec (diff2vec b a) = r at *
      have h2 : r * dot2vec (diff2vec p a) (diff2vec b a) =
          r * r * mag2vec (diff2vec b a) := by rw [hdtr]; ring
      have h3 : 0 ≤ (1 - r) * (1 - r) * mag2vec (diff2vec b a) :=
        mul_nonneg (mul_self_nonneg (1 - r)) hlpos.le
      unfold magDiff2vec mag2vec diff2vec dot2vec at *
      dsimp only at *
      nlinarith [h2, h3]


theorem fmGo_spec (a b : Pt) (c : List Pt) (l : List ℕ) (acc : ℕ × ℚ) :
    (∀ x ∈ l, segDist a b (c.getD x (0, 0)) ≤ (fmGo a b c l acc).2) ∧
    acc.2 ≤ (fmGo a b c l acc).2 ∧
    (fmGo a b c l acc = acc ∨
      ((fmGo a b c l acc).1 ∈ l ∧
       (fmGo a b c l acc).2 = segDist a b (c.getD (fmGo a b c l acc).1 (0, 0)) ∧
       acc.2 < (fmGo a b c l acc).2)) := by
  induction l generalizing acc with
  | nil => exact ⟨by simp, le_rfl, Or.inl rfl⟩
  | cons i rest ih =>
    simp only [fmGo]
    by_cases hd : segDist a b (c.getD i (0, 0)) ≤ acc.2
    · rw [if_pos hd]
      obtain ⟨hub, hmono, hch⟩ := ih acc
      refine ⟨?_, hmono, ?_⟩
      · intro x hx
        rcases List.mem_cons.mp hx with rfl | hx
        · exact le_trans hd hmono
        · exact hub x hx
      · rcases hch with h | ⟨h1, h2, h3⟩
        · exact Or.inl h
        · exact Or.inr ⟨List.mem_cons_of_mem _ h1, h2, h3⟩
    · rw [if_neg hd]
      obtain ⟨hub, hmono, hch⟩ := ih (i, segDist a b (c.getD i (0, 0)))
      have hlt := lt_of_not_le hd
      refine ⟨?_, le_trans hlt.le hmono, ?_⟩
      · intro x hx
        rcases List.mem_cons.mp hx with rfl | hx
        · exact hmono
        · exact hub x hx
      · rcases hch with h | ⟨h1, h2, h3⟩
        · rw [h]
          exact Or.inr ⟨List.mem_cons_self _ _, rfl, hlt⟩
        · exact Or.inr ⟨List.mem_cons_of_mem _ h1, h2, lt_trans hlt h3⟩

theorem fmGo_before (a b : Pt) (c : List Pt) (l : List ℕ) (acc : ℕ × ℚ)
    (hs : l.Pairwise (· < ·))
    (hacc : ∀ x ∈ l, x < acc.1 → segDist a b (c.getD x (0, 0)) < acc.2) :
    ∀ x ∈ l, x < (fmGo a b c l acc).1 →
      segDist a b (c.getD x (0, 0)) < (fmGo a b c l acc).2 := by
  induction l generalizing acc with
  | nil => intro x hx; exact absurd hx (List.not_mem_nil x)
  | cons i rest ih =>
    have hpair := List.pairwise_cons.mp hs
    simp only [fmGo]
    by_cases hd : segDist a b (c.getD i (0, 0)) ≤ acc.2
    · rw [if_pos hd]
      intro x hx hlt
      rcases List.mem_cons.mp hx with rfl | hx
      · obtain ⟨_, hmono, hch⟩ := fmGo_spec a b c rest acc
        rcases hch with h | ⟨_, _, h3⟩
        · rw [h] at hlt ⊢
          exact hacc x (List.mem_cons_self _ _) hlt
        · exact lt_of_le_of_lt hd h3
      · refine ih acc hpair.2 ?_ x hx hlt
        intro y hy hy2
        exact hacc y (List.mem_cons_of_mem _ hy) hy2
    · rw [if_neg hd]
      intro x hx hlt
      rcases List.mem_cons.mp hx with rfl | hx
      · obtain ⟨_, hmono, hch⟩ := fmGo_spec a b c rest (x, segDist a b (c.getD x (0, 0)))
        rcases hch with h | ⟨_, _, h3⟩
        · rw [h] at hlt
          exact absurd hlt (lt_irrefl x)
        · exact h3
      · refine ih _ hpair.2 ?_ x hx hlt
        intro y hy hy2
        exact absurd hy2 (not_lt.mpr (hpair.1 y hy).le)

theorem findMax_ub (c : List Pt) (s e i : ℕ) (h1 : s < i) (h2 : i < e) :
    segDist (c.getD s (0, 0)) (c.getD e (0, 0)) (c.getD i (0, 0)) ≤ (findMax c s e).2 := by
  have hmem : i ∈ List.range' (s + 1) (e - (s + 1)) := by
    rw [List.mem_range'_1]
    omega
  exact (fmGo_spec _ _ c _ (s, 0)).1 i hmem

theorem findMax_pos_spec (c : List Pt) (s e : ℕ) (h : 0 < (findMax c s e).2) :
    s < (findMax c s e).1 ∧ (findMax c s e).1 < e ∧
      (findMax c s e).2 =
        segDist (c.getD s (0, 0)) (c.getD e (0, 0)) (c.getD (findMax c s e).1 (0, 0)) := by
  obtain ⟨_, _, hch⟩ :=
    fmGo_spec (c.getD s (0, 0)) (c.getD e (0, 0)) c (List.range' (s + 1) (e - (s + 1))) (s, 0)
  rw [show fmGo (c.getD s (0, 0)) (c.getD e (0, 0)) c
      (List.range' (s + 1) (e - (s + 1))) (s, 0) = findMax c s e from rfl] at hch
  rcases hch with heq | ⟨h1, h2, _⟩
  · rw [heq] at h
    exact absurd h (lt_irrefl 0)
  · rw [List.mem_range'_1] at h1
    exact ⟨by omega, by omega, h2⟩

theorem findMax_before (c : List Pt) (s e : ℕ) (h : 0 < (findMax c s e).2) :
    ∀ i, s < i → i < (findMax c s e).1 →
      segDist (c.getD s (0, 0)) (c.getD e (0, 0)) (c.getD i (0, 0)) < (findMax c s e).2 := by
  intro i hi1 hi2
  have hb := findMax_pos_spec c s e h
  have hmem : i ∈ List.range' (s + 1) (e - (s + 1)) := by
    rw [List.mem_range'_1]
    omega
  refine fmGo_before _ _ c _ (s, 0) (List.pairwise_lt_range' _ _) ?_ i hmem hi2
  intro y hy hy2
  rw [List.mem_range'_1] at hy
  omega

/-- The recursion tree of the reduce helper: the set of indices it marks on
the sub-chain from s to e, independent of the key accumulator. -/
inductive DPTree (t : ℚ) (c : List Pt) : ℕ → ℕ → Finset ℕ → Prop where
  | leaf_adj {s e : ℕ} : e ≤ s + 1 → DPTree t c s e ∅
  | leaf_tol {s e : ℕ} : ¬ e ≤ s + 1 → ¬ t * t < (findMax c s e).2 → DPTree t c s e ∅
  | node {s e : ℕ} {M1 M2 : Finset ℕ} : ¬ e ≤ s + 1 → t * t < (findMax c s e).2 →
      DPTree t c s (findMax c s e).1 M1 → DPTree t c (findMax c s e).1 e M2 →
      DPTree t c s e (insert (findMax c s e).1 (M1 ∪ M2))

theorem reduce_eq_union (t : ℚ) (c : List Pt) :
    ∀ (n s e : ℕ), e - s ≤ n → ∀ key, ∃ M, DPTree t c s e M ∧
      reduce t c s e key = key ∪ M := by
  intro n
  induction n with
  | zero =>
    intro s e hse key
    have hadj : e ≤ s + 1 := by omega
    refine ⟨∅, DPTree.leaf_adj hadj, ?_⟩
    rw [reduce, if_pos hadj, Finset.union_empty]
  | succ n ih =>
    intro s e hse key
    by_cases hadj : e ≤ s + 1
    · refine ⟨∅, DPTree.leaf_adj hadj, ?_⟩
      rw [reduce, if_pos hadj, Finset.union_empty]
    · by_cases hmax : t * t < (findMax c s e).2
      · obtain ⟨hm1, hm2⟩ := findMax_pos_bounds c s e t hmax
        obtain ⟨M1, htree1, hred1⟩ := ih s (findMax c s e).1 (by omega)
          (insert (findMax c s e).1 key)
        obtain ⟨M2, htree2, hred2⟩ := ih (findMax c s e).1 e (by omega)
          (insert (findMax c s e).1 key ∪ M1)
        refine ⟨insert (findMax c s e).1 (M1 ∪ M2),
          DPTree.node hadj hmax htree1 htree2, ?_⟩
        rw [reduce, if_neg hadj, dif_pos hmax, hred1, hred2]
        ext x
        simp only [Finset.mem_union, Finset.mem_insert]
        tauto
      · refine ⟨∅, DPTree.leaf_tol hadj hmax, ?_⟩
        rw [reduce, if_neg hadj, dif_neg hmax, Finset.union_empty]

theorem reduce_subset_key (t : ℚ) (c : List Pt) (s e : ℕ) (key : Finset ℕ) :
    key ⊆ reduce t c s e key := by
  obtain ⟨M, _, hred⟩ := reduce_eq_union t c (e - s) s e le_rfl key
  rw [hred]
  exact Finset.subset_union_left

theorem DPTree_subset (t : ℚ) (c : List Pt) {s e : ℕ} {M : Finset ℕ}
    (h : DPTree t c s e M) : ∀ x ∈ M, s < x ∧ x < e := by
  induction h with
  | leaf_adj h => intro x hx; exact absurd hx (Finset.not_mem_empty x)
  | leaf_tol h1 h2 => intro x hx; exact absurd hx (Finset.not_mem_empty x)
  | node hadj hmax htree1 htree2 ih1 ih2 =>
    intro x hx
    obtain ⟨hb1, hb2⟩ := findMax_pos_bounds c _ _ _ hmax
    rcases Finset.mem_insert.mp hx with rfl | hx
    · exact ⟨hb1, hb2⟩
    · rcases Finset.mem_union.mp hx with hx | hx
      · obtain ⟨h1, h2⟩ := ih1 x hx
        exact ⟨h1, by omega⟩
      · obtain ⟨h1, h2⟩ := ih2 x hx
        exact ⟨by omega, h2⟩

theorem DPTree_pairs (t : ℚ) (c : List Pt) :
    ∀ {s e : ℕ} {M : Finset ℕ}, DPTree t c s e M → s ≤ e →
    ∀ i j, i ∈ insert s (insert e M) → j ∈ insert s (insert e M) → i < j →
      (∀ x ∈ M, ¬(i < x ∧ x < j)) →
      (j = i + 1 ∨ t * t < magDiff2vec (c.getD j (0, 0)) (c.getD i (0, 0)) ∨
        (i = s ∧ j = e)) := by
  intro s e M h
  induction h with
  | @leaf_adj s e h =>
    intro hse i j hi hj hij hbet
    simp only [Finset.mem_insert, Finset.not_mem_empty, or_false] at hi hj
    rcases hi with rfl | rfl <;> rcases hj with rfl | rfl <;>
      first
        | exact absurd hij (lt_irrefl _)
        | exact Or.inr (Or.inr ⟨rfl, rfl⟩)
        | omega
  | @leaf_tol s e h1 h2 =>
    intro hse i j hi hj hij hbet
    simp only [Finset.mem_insert, Finset.not_mem_empty, or_false] at hi hj
    rcases hi with rfl | rfl <;> rcases hj with rfl | rfl <;>
      first
        | exact absurd hij (lt_irrefl _)
        | exact Or.inr (Or.inr ⟨rfl, rfl⟩)
        | omega
  | @node s e M1 M2 hadj hmax htree1 htree2 ih1 ih2 =>
    intro hse i j hi hj hij hbet
    obtain ⟨hm1, hm2⟩ := findMax_pos_bounds c s e t hmax
    have hpos : 0 < (findMax c s e).2 :=
      lt_of_le_of_lt (mul_self_nonneg t) hmax
    have hval := (findMax_pos_spec c s e hpos).2.2
    have hM1 := DPTree_subset t c htree1
    have hM2 := DPTree_subset t c htree2
    have hnotm : ¬ (i < (findMax c s e).1 ∧ (findMax c s e).1 < j) :=
      hbet _ (Finset.mem_insert_self _ _)
    simp only [Finset.mem_insert, Finset.mem_union] at hi hj
    by_cases hjm : j ≤ (findMax c s e).1
    · have hi2 : i ∈ insert s (insert (findMax c s e).1 M1) := by
        simp only [Finset.mem_insert]
        rcases hi with rfl | rfl | rfl | hi | hi
        · exact Or.inl rfl
        · omega
        · omega
        · exact Or.inr (Or.inr hi)
        · have := hM2 i hi
          omega
      have hj2 : j ∈ insert s (insert (findMax c s e).1 M1) := by
        simp only [Finset.mem_insert]
        rcases hj with rfl | rfl | rfl | hj | hj
        · -- j = s: impossible since i < j and every member is at least s
          exfalso
          rcases hi with rfl | rfl | rfl | hi | hi
          · omega
          · omega
          · omega
          · have := hM1 i hi; omega
          · have := hM2 i hi; omega
        · omega
        · exact Or.inr (Or.inl rfl)
        · exact Or.inr (Or.inr hj)
        · have := hM2 j hj
          omega
      have hbet2 : ∀ x ∈ M1, ¬(i < x ∧ x < j) := by
        intro x hx
        exact hbet x (Finset.mem_insert_of_mem (Finset.mem_union_left _ hx))
      rcases ih1 (by omega) i j hi2 hj2 hij hbet2 with h | h | ⟨hie, hje⟩
      · exact Or.inl h
      · exact Or.inr (Or.inl h)
      · refine Or.inr (Or.inl ?_)
        rw [hie, hje]
        calc t * t < (findMax c s e).2 := hmax
          _ = segDist (c.getD s (0, 0)) (c.getD e (0, 0))
                (c.getD (findMax c s e).1 (0, 0)) := hval
          _ ≤ magDiff2vec (c.getD (findMax c s e).1 (0, 0)) (c.getD s (0, 0)) :=
                segDist_le_left _ _ _
    · have hmi : (findMax c s e).1 ≤ i := by omega
      have hi2 : i ∈ insert (findMax c s e).1 (insert e M2) := by
        simp only [Finset.mem_insert]
        rcases hi with rfl | rfl | rfl | hi | hi
        · omega
        · exact Or.inr (Or.inl rfl)
        · exact Or.inl rfl
        · have := hM1 i hi
          omega
        · exact Or.inr (Or.inr hi)
      have hj2 : j ∈ insert (findMax c s e).1 (insert e M2) := by
        simp only [Finset.mem_insert]
        rcases hj with rfl | rfl | rfl | hj | hj
        · omega
        · exact Or.inr (Or.inl rfl)
        · omega
        · have := hM1 j hj
          omega
        · exact Or.inr (Or.inr hj)
      have hbet2 : ∀ x ∈ M2, ¬(i < x ∧ x < j) := by
        intro x hx
        exact hbet x (Finset.mem_insert_of_mem (Finset.mem_union_right _ hx))
      rcases ih2 (by omega) i j hi2 hj2 hij hbet2 with h | h | ⟨hie, hje⟩
      · exact Or.inl h
      · exact Or.inr (Or.inl h)
      · refine Or.inr (Or.inl ?_)
        rw [hie, hje, magDiff2vec_comm]
        calc t * t < (findMax c s e).2 := hmax
          _ = segDist (c.getD s (0, 0)) (c.getD e (0, 0))
                (c.getD (findMax c s e).1 (0, 0)) := hval
          _ ≤ magDiff2vec (c.getD (findMax c s e).1 (0, 0)) (c.getD e (0, 0)) :=
                segDist_le_right _ _ _

theorem rfGo_chain (tol2 : ℚ) (lastKept : Pt) (l : List Pt) :
    List.Chain' (fun a b => tol2 ≤ magDiff2vec b a)
      (lastKept :: (rfGo tol2 lastKept l).1) := by
  induction l generalizing lastKept with
  | nil => simp [rfGo]
  | cons p rest ih =>
    cases rest with
    | nil =>
      rw [rfGo]
      by_cases hd : magDiff2vec p lastKept < tol2
      · rw [if_pos hd]
        simp
      · rw [if_neg hd]
        simp [le_of_not_lt hd]
    | cons q rest2 =>
      rw [rfGo]
      by_cases hd : magDiff2vec p lastKept < tol2
      · rw [if_pos hd]
        exact ih lastKept
      · rw [if_neg hd]
        exact List.chain'_cons.mpr ⟨le_of_not_lt hd, ih p⟩

theorem rfGo_all_spread (tol2 : ℚ) (lastKept : Pt) (l : List Pt)
    (h : List.Chain' (fun a b => tol2 ≤ magDiff2vec b a) (lastKept :: l)) :
    rfGo tol2 lastKept l = (l, true) := by
  induction l generalizing lastKept with
  | nil => rfl
  | cons p rest ih =>
    obtain ⟨h1, h2⟩ := List.chain'_cons.mp h
    cases rest with
    | nil =>
      rw [rfGo, if_neg (not_lt.mpr h1)]
    | cons q rest2 =>
      rw [rfGo, if_neg (not_lt.mpr h1), ih p h2]

theorem rfGo_forced (tol2 : ℚ) (q : Pt) :
    ∀ (linit : List Pt) (lastKept : Pt),
    List.Chain' (fun a b => tol2 ≤ magDiff2vec b a) (lastKept :: linit) →
    magDiff2vec q ((lastKept :: linit).getLast (List.cons_ne_nil _ _)) < tol2 →
    rfGo tol2 lastKept (linit ++ [q]) = (linit, false) := by
  intro linit
  induction linit with
  | nil =>
    intro lastKept hch hq
    simp only [List.getLast_singleton] at hq
    rw [List.nil_append, rfGo, if_pos hq]
  | cons p linit2 ih =>
    intro lastKept hch hq
    obtain ⟨h1, h2⟩ := List.chain'_cons.mp hch
    have hql : magDiff2vec q ((p :: linit2).getLast (List.cons_ne_nil _ _)) < tol2 := by
      have hlast : (lastKept :: p :: linit2).getLast (List.cons_ne_nil _ _) =
          (p :: linit2).getLast (List.cons_ne_nil _ _) :=
        List.getLast_cons (List.cons_ne_nil _ _)
      rw [hlast] at hq
      exact hq
    cases linit2 with
    | nil =>
      rw [List.cons_append, List.nil_append, rfGo, if_neg (not_lt.mpr h1)]
      have := ih p h2 hql
      rw [List.nil_append] at this
      rw [this]
    | cons w linit3 =>
      have e1 : (p :: w :: linit3) ++ [q] = p :: w :: (linit3 ++ [q]) := rfl
      rw [e1, rfGo, if_neg (not_lt.mpr h1)]
      have e2 : w :: (linit3 ++ [q]) = (w :: linit3) ++ [q] := rfl
      rw [e2, ih p h2 hql]

theorem rfilter_spread (tol2 : ℚ) (v : List Pt) :
    List.Chain' (fun a b => tol2 ≤ magDiff2vec b a) (rfilter tol2 v).dropLast := by
  cases v with
  | nil => simp [rfilter]
  | cons v0 rest =>
    have hch := rfGo_chain tol2 v0 rest
    simp only [rfilter]
    by_cases hb : (rfGo tol2 v0 rest).2 = true
    · rw [if_pos hb]
      exact hch.prefix (List.dropLast_prefix _)
    · rw [if_neg hb]
      have e1 : v0 :: (rfGo tol2 v0 rest).1 ++
          [(v0 :: rest).getLast (List.cons_ne_nil v0 rest)] =
          (v0 :: (rfGo tol2 v0 rest).1) ++
          [(v0 :: rest).getLast (List.cons_ne_nil v0 rest)] := rfl
      rw [e1, List.dropLast_concat]
      exact hch

theorem rfilter_fixed (tol2 : ℚ) (O : List Pt) (hne : O ≠ [])
    (h : List.Chain' (fun a b => tol2 ≤ magDiff2vec b a) O.dropLast) :
    rfilter tol2 O = O := by
  cases O with
  | nil => exact absurd rfl hne
  | cons v0 rest =>
    rcases List.eq_nil_or_concat rest with rfl | ⟨linit, q, rfl⟩
    · rfl
    · simp only [List.concat_eq_append] at h ⊢
      have hdrop : (v0 :: (linit ++ [q])).dropLast = v0 :: linit := by
        have e1 : v0 :: (linit ++ [q]) = (v0 :: linit) ++ [q] := rfl
        rw [e1, List.dropLast_concat]
      rw [hdrop] at h
      have hlastq : (v0 :: (linit ++ [q])).getLast (List.cons_ne_nil _ _) = q := by
        have h1 : (v0 :: (linit ++ [q])).getLast? = some q := by
          rw [List.getLast?_cons, List.getLast?_append]
          · simp
        rw [List.getLast?_eq_getLast _ (List.cons_ne_nil _ _)] at h1
        exact Option.some_inj.mp h1
      by_cases hfin : magDiff2vec q ((v0 :: linit).getLast (List.cons_ne_nil _ _)) < tol2
      · have hgo := rfGo_forced tol2 q linit v0 h hfin
        simp only [rfilter, hgo]
        rw [if_neg (by simp)]
        rw [hlastq]
        rfl
      · have hall : List.Chain' (fun a b => tol2 ≤ magDiff2vec b a)
            (v0 :: (linit ++ [q])) := by
          have e1 : v0 :: (linit ++ [q]) = (v0 :: linit) ++ [q] := rfl
          rw [e1]
          refine List.chain'_append.mpr ⟨h, List.chain'_singleton q, ?_⟩
          intro x hx y hy
          simp only [List.head?_cons, Option.mem_def, Option.some.injEq] at hy
          rw [List.getLast?_eq_getLast _ (List.cons_ne_nil _ _), Option.mem_def,
            Option.some.injEq] at hx
          subst hx
          subst hy
          exact le_of_not_lt hfin
        have hgo := rfGo_all_spread tol2 v0 (linit ++ [q]) hall
        simp only [rfilter, hgo]
        rw [if_pos (by simp)]

theorem filterMap_if_eq (l : List ℕ) (K : Finset ℕ) (f : ℕ → Pt) :
    l.filterMap (fun i => if i ∈ K then some (f i) else none) =
      (l.filter (fun i => i ∈ K)).map f := by
  induction l with
  | nil => rfl
  | cons a l ih =>
    by_cases ha : a ∈ K
    · simp [List.filterMap_cons, List.filter_cons, ha, ih]
    · simp [List.filterMap_cons, List.filter_cons, ha, ih]

theorem map_getD_range (l : List Pt) :
    (List.range l.length).map (fun i => l.getD i (0, 0)) = l := by
  apply List.ext_getElem
  · simp
  · intro i h1 h2
    simp only [List.getElem_map, List.getElem_range]
    exact List.getD_eq_getElem l (0, 0) h2

/-!  Position machinery: for a key set K of chain indices, posL is the
ascending list of marked indices below k, and the second-pass chain is the
corresponding vertex list. -/

theorem posL_sorted (k : ℕ) (K : Finset ℕ) :
    (((List.range k).filter (fun i => i ∈ K))).Pairwise (· < ·) :=
  (List.pairwise_lt_range k).filter _

theorem posL_mem (k : ℕ) (K : Finset ℕ) (x : ℕ) :
    x ∈ (List.range k).filter (fun i => i ∈ K) ↔ x < k ∧ x ∈ K := by
  simp [List.mem_filter]

theorem posL_getD_mono (k : ℕ) (K : Finset ℕ) (p q : ℕ)
    (hpq : p < q) (hq : q < ((List.range k).filter (fun i => i ∈ K)).length) :
    ((List.range k).filter (fun i => i ∈ K)).getD p 0 <
      ((List.range k).filter (fun i => i ∈ K)).getD q 0 := by
  set l := (List.range k).filter (fun i => i ∈ K) with hl
  have hp : p < l.length := lt_trans hpq hq
  rw [List.getD_eq_getElem l 0 hp, List.getD_eq_getElem l 0 hq]
  have := List.pairwise_iff_get.mp (posL_sorted k K) ⟨p, hp⟩ ⟨q, hq⟩ hpq
  simpa using this

theorem posL_getD_mono_inv (k : ℕ) (K : Finset ℕ) (p q : ℕ)
    (hp : p < ((List.range k).filter (fun i => i ∈ K)).length)
    (hq : q < ((List.range k).filter (fun i => i ∈ K)).length)
    (h : ((List.range k).filter (fun i => i ∈ K)).getD p 0 <
      ((List.range k).filter (fun i => i ∈ K)).getD q 0) : p < q := by
  rcases lt_trichotomy p q with h1 | rfl | h1
  · exact h1
  · exact absurd h (lt_irrefl _)
  · exact absurd (posL_getD_mono k K q p h1 hp) (not_lt.mpr h.le)

theorem posL_getD_inj (k : ℕ) (K : Finset ℕ) (p q : ℕ)
    (hp : p < ((List.range k).filter (fun i => i ∈ K)).length)
    (hq : q < ((List.range k).filter (fun i => i ∈ K)).length)
    (h : ((List.range k).filter (fun i => i ∈ K)).getD p 0 =
      ((List.range k).filter (fun i => i ∈ K)).getD q 0) : p = q := by
  rcases lt_trichotomy p q with h1 | rfl | h1
  · exact absurd (posL_getD_mono k K p q h1 hq) (by omega)
  · rfl
  · exact absurd (posL_getD_mono k K q p h1 hp) (by omega)

theorem posL_getD_mem (k : ℕ) (K : Finset ℕ) (p : ℕ)
    (hp : p < ((List.range k).filter (fun i => i ∈ K)).length) :
    ((List.range k).filter (fun i => i ∈ K)).getD p 0 < k ∧
      ((List.range k).filter (fun i => i ∈ K)).getD p 0 ∈ K := by
  rw [List.getD_eq_getElem _ 0 hp]
  exact (posL_mem k K _).mp (List.getElem_mem hp)

theorem posL_surj (k : ℕ) (K : Finset ℕ) (x : ℕ) (h1 : x < k) (h2 : x ∈ K) :
    ∃ p, p < ((List.range k).filter (fun i => i ∈ K)).length ∧
      ((List.range k).filter (fun i => i ∈ K)).getD p 0 = x := by
  have hmem : x ∈ (List.range k).filter (fun i => i ∈ K) := (posL_mem k K x).mpr ⟨h1, h2⟩
  obtain ⟨p, hp, hval⟩ := List.getElem_of_mem hmem
  exact ⟨p, hp, by rw [List.getD_eq_getElem _ 0 hp, hval]⟩

theorem mir (t : ℚ) (F : List Pt) (K : Finset ℕ) (posL : List ℕ) (O : List Pt)
    (hposL : posL = (List.range F.length).filter (fun i => i ∈ K))
    (hO : O = posL.map (fun i => F.getD i (0, 0))) :
    ∀ {a b : ℕ} {Msub : Finset ℕ}, DPTree t F a b Msub →
    Msub ⊆ K →
    (∀ x ∈ K, a < x → x < b → x ∈ Msub) →
    ∀ pa pb : ℕ, pa < posL.length → pb < posL.length →
      posL.getD pa 0 = a → posL.getD pb 0 = b →
      ∀ key2 : Finset ℕ,
        key2 ⊆ reduce t O pa pb key2 ∧
        (∀ p, p < posL.length → posL.getD p 0 ∈ Msub →
          p ∈ reduce t O pa pb key2) := by
  have hbr : ∀ p, p < posL.length → O.getD p (0, 0) = F.getD (posL.getD p 0) (0, 0) := by
    intro p hp
    have hp3 : p < (posL.map (fun i => F.getD i (0, 0))).length := by
      rw [List.length_map]
      exact hp
    conv_lhs => rw [hO]
    rw [List.getD_eq_getElem _ _ hp3, List.getElem_map, List.getD_eq_getElem _ _ hp]
  intro a b Msub htree
  induction htree with
  | @leaf_adj s e h =>
    intro hsubK hloc pa pb hpa hpb hpaeq hpbeq key2
    exact ⟨reduce_subset_key t O pa pb key2,
      fun p hp hmem => absurd hmem (Finset.not_mem_empty _)⟩
  | @leaf_tol s e h1 h2 =>
    intro hsubK hloc pa pb hpa hpb hpaeq hpbeq key2
    exact ⟨reduce_subset_key t O pa pb key2,
      fun p hp hmem => absurd hmem (Finset.not_mem_empty _)⟩
  | @node s e M1 M2 hadj hmax htree1 htree2 ih1 ih2 =>
    intro hsubK hloc pa pb hpa hpb hpaeq hpbeq key2
    obtain ⟨hm1, hm2⟩ := findMax_pos_bounds F s e t hmax
    have hposF : 0 < (findMax F s e).2 := lt_of_le_of_lt (mul_self_nonneg t) hmax
    have hvalF := (findMax_pos_spec F s e hposF).2.2
    have hsub1 := DPTree_subset t F htree1
    have hsub2 := DPTree_subset t F htree2
    -- the mark m is in K and below the chain length
    have hmK : (findMax F s e).1 ∈ K :=
      hsubK (Finset.mem_insert_self _ _)
    have hbk : e < F.length := by
      have := posL_getD_mem F.length K pb (by rw [← hposL]; exact hpb)
      rw [← hposL, hpbeq] at this
      exact this.1
    have hmk : (findMax F s e).1 < F.length := by omega
    -- its position pm
    obtain ⟨pm, hpm, hpmeq⟩ := posL_surj F.length K (findMax F s e).1 hmk hmK
    rw [← hposL] at hpm hpmeq
    -- pa < pm < pb
    have hpapm : pa < pm := by
      apply posL_getD_mono_inv F.length K pa pm (by rw [← hposL] at *; exact hpa)
        (by rw [← hposL] at *; exact hpm)
      rw [← hposL] at *
      rw [hpaeq, hpmeq]
      exact hm1
    have hpmpb : pm < pb := by
      apply posL_getD_mono_inv F.length K pm pb (by rw [← hposL] at *; exact hpm)
        (by rw [← hposL] at *; exact hpb)
      rw [← hposL] at *
      rw [hpmeq, hpbeq]
      exact hm2
    -- bridging of the distance scans
    have hOlen : O.length = posL.length := by rw [hO, List.length_map]
    have hseg : ∀ p, p < posL.length →
        segDist (O.getD pa (0, 0)) (O.getD pb (0, 0)) (O.getD p (0, 0)) =
          segDist (F.getD s (0, 0)) (F.getD e (0, 0))
            (F.getD (posL.getD p 0) (0, 0)) := by
      intro p hp
      rw [hbr pa hpa, hbr pb hpb, hbr p hp, hpaeq, hpbeq]
    -- characterize the second-pass findMax
    have hub : (findMax F s e).2 ≤ (findMax O pa pb).2 := by
      have h1 := findMax_ub O pa pb pm hpapm hpmpb
      rw [hseg pm hpm, hpmeq, ← hvalF] at h1
      exact h1
    have hposO : 0 < (findMax O pa pb).2 := lt_of_lt_of_le hposF hub
    obtain ⟨hr1, hr2, hrval⟩ := findMax_pos_spec O pa pb hposO
    have hrlen : (findMax O pa pb).1 < posL.length := lt_trans hr2 hpb
    have hrx : posL.getD (findMax O pa pb).1 0 ∈ K ∧
        posL.getD (findMax O pa pb).1 0 < F.length := by
      have := posL_getD_mem F.length K (findMax O pa pb).1 (by rw [← hposL]; exact hrlen)
      rw [← hposL] at this
      exact ⟨this.2, this.1⟩
    have hrxa : s < posL.getD (findMax O pa pb).1 0 := by
      have := posL_getD_mono F.length K pa (findMax O pa pb).1
        (by exact hr1) (by rw [← hposL]; exact hrlen)
      rw [← hposL] at this
      rw [hpaeq] at this
      exact this
    have hrxb : posL.getD (findMax O pa pb).1 0 < e := by
      have := posL_getD_mono F.length K (findMax O pa pb).1 pb hr2
        (by rw [← hposL]; exact hpb)
      rw [← hposL] at this
      rw [hpbeq] at this
      exact this
    have hle : (findMax O pa pb).2 ≤ (findMax F s e).2 := by
      rw [hrval, hseg _ hrlen]
      exact findMax_ub F s e _ hrxa hrxb
    have hveq : (findMax O pa pb).2 = (findMax F s e).2 := le_antisymm hle hub
    -- the maximizing position is exactly pm
    have hperes : (findMax O pa pb).1 = pm := by
      rcases lt_trichotomy (posL.getD (findMax O pa pb).1 0) (findMax F s e).1
        with hlt | heq | hgt
      · exfalso
        have hbefore := findMax_before F s e hposF _ hrxa hlt
        rw [← hseg _ hrlen, ← hrval, hveq] at hbefore
        exact lt_irrefl _ hbefore
      · exact posL_getD_inj F.length K _ pm
          (by rw [← hposL]; exact hrlen) (by rw [← hposL]; exact hpm)
          (by rw [← hposL] at *; rw [heq, hpmeq])
      · exfalso
        have hpmlt : pm < (findMax O pa pb).1 := by
          apply posL_getD_mono_inv F.length K pm _ (by rw [← hposL]; exact hpm)
            (by rw [← hposL]; exact hrlen)
          rw [← hposL] at *
          rw [hpmeq]
          exact hgt
        have hbefore := findMax_before O pa pb hposO pm hpapm hpmlt
        rw [hseg pm hpm, hpmeq, ← hvalF, ← hveq] at hbefore
        exact lt_irrefl _ hbefore
    -- unfold the second-pass reduce at this chord
    have hred : reduce t O pa pb key2 =
        reduce t O pm pb (reduce t O pa pm (insert pm key2)) := by
      rw [reduce, if_neg (by omega : ¬ pb ≤ pa + 1)]
      rw [dif_pos (by rw [hveq]; exact hmax)]
      rw [hperes]
    -- the two inductive calls
    have hsubK1 : M1 ⊆ K := fun x hx =>
      hsubK (Finset.mem_insert_of_mem (Finset.mem_union_left _ hx))
    have hsubK2 : M2 ⊆ K := fun x hx =>
      hsubK (Finset.mem_insert_of_mem (Finset.mem_union_right _ hx))
    have hloc1 : ∀ x ∈ K, s < x → x < (findMax F s e).1 → x ∈ M1 := by
      intro x hxK hx1 hx2
      have := hloc x hxK hx1 (by omega)
      rcases Finset.mem_insert.mp this with rfl | hx
      · omega
      · rcases Finset.mem_union.mp hx with hx | hx
        · exact hx
        · have := hsub2 x hx
          omega
    have hloc2 : ∀ x ∈ K, (findMax F s e).1 < x → x < e → x ∈ M2 := by
      intro x hxK hx1 hx2
      have := hloc x hxK (by omega) hx2
      rcases Finset.mem_insert.mp this with rfl | hx
      · omega
      · rcases Finset.mem_union.mp hx with hx | hx
        · have := hsub1 x hx
          omega
        · exact hx
    obtain ⟨hk1, hm1marks⟩ := ih1 hsubK1 hloc1 pa pm hpa hpm hpaeq hpmeq
      (insert pm key2)
    obtain ⟨hk2, hm2marks⟩ := ih2 hsubK2 hloc2 pm pb hpm hpb hpmeq hpbeq
      (reduce t O pa pm (insert pm key2))
    rw [hred]
    constructor
    · intro x hx
      exact hk2 (hk1 (Finset.mem_insert_of_mem hx))
    · intro p hp hmem
      rcases Finset.mem_insert.mp hmem with heq | hmem2
      · have hppm : p = pm := posL_getD_inj F.length K p pm
          (by rw [← hposL]; exact hp) (by rw [← hposL]; exact hpm)
          (by rw [← hposL] at *; rw [heq, hpmeq])
        subst hppm
        exact hk2 (hk1 (Finset.mem_insert_self _ _))
      · rcases Finset.mem_union.mp hmem2 with hmem3 | hmem3
        · exact hk2 (hm1marks p hp hmem3)
        · exact hm2marks p hp hmem3

theorem getD_map_getD (F : List Pt) (posL : List ℕ) (p : ℕ) (hp : p < posL.length) :
    (posL.map (fun i => F.getD i (0, 0))).getD p (0, 0) =
      F.getD (posL.getD p 0) (0, 0) := by
  have hp3 : p < (posL.map (fun i => F.getD i (0, 0))).length := by
    rw [List.length_map]
    exact hp
  rw [List.getD_eq_getElem _ _ hp3, List.getElem_map, List.getD_eq_getElem _ _ hp]

theorem posL_first (k : ℕ) (K : Finset ℕ) (h0 : 0 ∈ K) (hk : 0 < k) :
    ((List.range k).filter (fun i => i ∈ K)).getD 0 0 = 0 := by
  obtain ⟨p, hp, hval⟩ := posL_surj k K 0 hk h0
  rcases Nat.eq_zero_or_pos p with rfl | hpos
  · exact hval
  · exfalso
    have := posL_getD_mono k K 0 p hpos hp
    omega

theorem posL_last (k : ℕ) (K : Finset ℕ) (hlast : k - 1 ∈ K) (hk : 0 < k) :
    ((List.range k).filter (fun i => i ∈ K)).getD
      (((List.range k).filter (fun i => i ∈ K)).length - 1) 0 = k - 1 := by
  obtain ⟨p, hp, hval⟩ := posL_surj k K (k - 1) (by omega) hlast
  set n2 := ((List.range k).filter (fun i => i ∈ K)).length with hn2
  rcases Nat.lt_or_ge p (n2 - 1) with hpos | hpos
  · exfalso
    have hmono := posL_getD_mono k K p (n2 - 1) hpos (by omega)
    have hmem := posL_getD_mem k K (n2 - 1) (by omega)
    omega
  · have : p = n2 - 1 := by omega
    rw [← this]
    exact hval

theorem posL_len_pos (k : ℕ) (K : Finset ℕ) (h0 : 0 ∈ K) (hk : 0 < k) :
    0 < ((List.range k).filter (fun i => i ∈ K)).length := by
  obtain ⟨p, hp, _⟩ := posL_surj k K 0 hk h0
  omega

theorem rfilter_ne_nil (tol2 : ℚ) (v : List Pt) (hv : v ≠ []) :
    rfilter tol2 v ≠ [] := by
  cases v with
  | nil => exact absurd rfl hv
  | cons v0 rest =>
    rw [rfilter]
    by_cases hb : (rfGo tol2 v0 rest).2 = true
    · rw [if_pos hb]
      exact List.cons_ne_nil _ _
    · rw [if_neg hb]
      exact List.cons_ne_nil _ _

theorem simplify_eq_filter (t : ℚ) (v : List Pt) :
    simplify t v = ((List.range (rfilter (t * t) v).length).filter
        (fun i => i ∈ reduce t (rfilter (t * t) v) 0 ((rfilter (t * t) v).length - 1)
          {0, (rfilter (t * t) v).length - 1})).map
      (fun i => (rfilter (t * t) v).getD i (0, 0)) := by
  simp only [simplify]
  rw [filterMap_if_eq]

/-!  Claim theorems. -/

/-- C1, counterexample: after steps (1) and (2) of union on the subject
(1,1), (2,1), (20,20) against the square clipper (0,0), (10,0), (10,10),
(0,10), the trimmed subject still contains a vertex that is inside the
clipper.  Removing index 0 shifts the second inside vertex into the slot the
loop has already passed, so it survives. -/
theorem c1_counterexample :
    ((unionTrim [((1 : ℚ), (1 : ℚ)), (2, 1), (20, 20)]
        [((0 : ℚ), (0 : ℚ)), (10, 0), (10, 10), (0, 10)]).1).any
      (fun p => inside [((0 : ℚ), (0 : ℚ)), (10, 0), (10, 10), (0, 10)] p) = true := by
  decide

/-- C1, amended: if no two consecutive stored vertices of the subject are
both inside the clipper, and no two consecutive stored vertices of the
clipper are both inside the trimmed subject, then after steps (1) and (2) of
union the trimmed subject contains no vertex inside the clipper and the
trimmed clipper contains no vertex inside the trimmed subject (step (2) of
the source tests against the already-trimmed subject). -/
theorem c1_trim_amended (subj clip : List Pt)
    (h1 : List.Chain' (fun a b => inside clip a = true → inside clip b = false) subj)
    (h2 : List.Chain'
      (fun a b => inside (trimAll clip subj) a = true →
                  inside (trimAll clip subj) b = false) clip) :
    (∀ p ∈ (unionTrim subj clip).1, inside clip p = false) ∧
    (∀ p ∈ (unionTrim subj clip).2, inside (unionTrim subj clip).1 p = false) := by
  refine ⟨?_, ?_⟩
  · intro p hp
    exact trimAll_not_inside clip subj h1 p hp
  · intro p hp
    exact trimAll_not_inside (trimAll clip subj) clip h2 p hp

/-- C1, witness: the amended theorem applied to the subject
(1,1), (20,20), (2,1) and the square clipper, where inside vertices are
never consecutive; both trimmed sets are then free of inside vertices. -/
theorem c1_witness :
    (∀ p ∈ (unionTrim [((1 : ℚ), (1 : ℚ)), (20, 20), (2, 1)]
        [((0 : ℚ), (0 : ℚ)), (10, 0), (10, 10), (0, 10)]).1,
      inside [((0 : ℚ), (0 : ℚ)), (10, 0), (10, 10), (0, 10)] p = false) ∧
    (∀ p ∈ (unionTrim [((1 : ℚ), (1 : ℚ)), (20, 20), (2, 1)]
        [((0 : ℚ), (0 : ℚ)), (10, 0), (10, 10), (0, 10)]).2,
      inside (unionTrim [((1 : ℚ), (1 : ℚ)), (20, 20), (2, 1)]
        [((0 : ℚ), (0 : ℚ)), (10, 0), (10, 10), (0, 10)]).1 p = false) :=
  c1_trim_amended _ _
    (by simp only [List.chain'_cons, List.chain'_singleton, and_true]
        exact ⟨by decide, by decide⟩)
    (by simp only [List.chain'_cons, List.chain'_singleton, and_true]
        exact ⟨by decide, by decide, by decide⟩)

/-- C2: on the square (0,0), (10,0), (10,10), (0,10) the Ixy returned by
data is 0, produced by the multiplicative expression Iuv times A times Cx
times Cy of source line 813, whereas the parallel-axis value Iuv plus A
times Cx times Cy required by the claim is 2500; the code multiplies where
the claim (and the parallel-axis theorem) adds. -/
theorem c2_ixy_eval :
    (polyData [0, 10, 10, 0] [0, 0, 10, 10]).Ixy = 0 ∧
    (polyData [0, 10, 10, 0] [0, 0, 10, 10]).Iuv +
      (polyData [0, 10, 10, 0] [0, 0, 10, 10]).A *
      (polyData [0, 10, 10, 0] [0, 0, 10, 10]).Cx *
      (polyData [0, 10, 10, 0] [0, 0, 10, 10]).Cy = 2500 ∧
    (polyData [0, 10, 10, 0] [0, 0, 10, 10]).Ixy ≠
      (polyData [0, 10, 10, 0] [0, 0, 10, 10]).Iuv +
      (polyData [0, 10, 10, 0] [0, 0, 10, 10]).A *
      (polyData [0, 10, 10, 0] [0, 0, 10, 10]).Cx *
      (polyData [0, 10, 10, 0] [0, 0, 10, 10]).Cy := by
  decide

/-- C3: on the trapezoid (0,0), (4,0), (4,2), (0,4), whose area is 12 and
whose true centroid is (16/9, 14/9), data returns the centroid
(-2/3, 13/6): the source adds the un-normalized canonical first moments to
the vertex mean (lines 809-810) instead of the moments divided by the area,
so the returned point differs from mean plus moment over area. -/
theorem c3_centroid_eval :
    (polyData [0, 4, 4, 0] [0, 0, 2, 4]).A = 12 ∧
    (polyData [0, 4, 4, 0] [0, 0, 2, 4]).Cx = -2 / 3 ∧
    (polyData [0, 4, 4, 0] [0, 0, 2, 4]).Cy = 13 / 6 ∧
    meanQ [0, 4, 4, 0] +
      canonCx [0, 4, 4, 0] [0, 0, 2, 4] / canonA [0, 4, 4, 0] [0, 0, 2, 4] = 16 / 9 ∧
    meanQ [0, 0, 2, 4] +
      canonCy [0, 4, 4, 0] [0, 0, 2, 4] / canonA [0, 4, 4, 0] [0, 0, 2, 4] = 14 / 9 ∧
    (polyData [0, 4, 4, 0] [0, 0, 2, 4]).Cx ≠
      meanQ [0, 4, 4, 0] +
        canonCx [0, 4, 4, 0] [0, 0, 2, 4] / canonA [0, 4, 4, 0] [0, 0, 2, 4] := by
  decide

/-- C4: on the collinear points (0,0), (1,1), (2,2) the circle system built
by radialFit is singular; gaussElimination divides by the vanished second
pivot and returns a vector whose entries are all non-finite (none models the
NaN of the double trace), and the circle centre derived from it is
non-finite as well.  The return types carry no failure indication: the
singular solve is not detected or reported, the non-finite values flow to
the caller. -/
theorem c4_singular_eval :
    fitCircleSolve [((0 : ℚ), (0 : ℚ)), (1, 1), (2, 2)] = [none, none, none] ∧
    fitCircleCenter [((0 : ℚ), (0 : ℚ)), (1, 1), (2, 2)] = (none, none) := by
  decide

/-- C5: the triangle (-10,0), (-9,0), (-10,1) is ordered counter-clockwise,
and its raw signed area computed by data is -1/2 (negative, as the library
convention makes clockwise positive); yet isClockWise returns true, because
its signed sum omits the closing-edge term and the partial sum -9 is
negative.  The claimed equivalence between isClockWise and the positivity of
the raw signed area fails. -/
theorem c5_isclockwise_eval :
    isClockWise [-10, -9, -10] [0, 0, 1] = true ∧
    rawA [-10, -9, -10] [0, 0, 1] < 0 := by
  decide

/-- C6: intersecting the axis-aligned square (0,0), (10,0), (10,10), (0,10)
with itself by the Sutherland-Hodgman clip returns a quadrilateral whose
canonicalized data area is exactly 100. -/
theorem c6_self_intersection_area :
    (polyData
      ((intersectPts [((0 : ℚ), (0 : ℚ)), (10, 0), (10, 10), (0, 10)]
        [((0 : ℚ), (0 : ℚ)), (10, 0), (10, 10), (0, 10)]).map Prod.fst)
      ((intersectPts [((0 : ℚ), (0 : ℚ)), (10, 0), (10, 10), (0, 10)]
        [((0 : ℚ), (0 : ℚ)), (10, 0), (10, 10), (0, 10)]).map Prod.snd)).A = 100 := by
  decide

/-- C8, amended: a polygon edge whose determinant against the query segment
vanishes (parallel or collinear, with the determinant exactly as the source
computes it) contributes no intersection point: the helper returns the FLAG
false result and the caller pushes nothing.  However, the code does perform
the reciprocal division with the zero determinant (see the counterexample
theorem); the decision is made through the resulting non-finite parameters
failing every range comparison, not by avoiding the division. -/
theorem c8_parallel_no_contribution
    (x1l1 y1l1 x2l1 y2l1 x1l2 y1l2 x2l2 y2l2 : ℚ)
    (h : lineDet x1l1 y1l1 x2l1 y2l1 x1l2 y1l2 x2l2 y2l2 = 0) :
    lineLineInter x1l1 y1l1 x2l1 y2l1 x1l2 y1l2 x2l2 y2l2 = none := by
  unfold lineLineInter lineLineInterDen
  rw [h]
  simp [jdiv, jmul, jbin, jle]

/-- C8, witness: the amended theorem applied to the horizontal segment from
(0,0) to (1,0) and the parallel edge from (0,1) to (1,1). -/
theorem c8_witness :
    lineLineInter 0 0 1 0 0 1 1 1 = none :=
  c8_parallel_no_contribution 0 0 1 0 0 1 1 1 (by decide)

/-- C8, counterexample: for the parallel pair of the witness the determinant
is zero, yet the den local is computed as the division of 1 by that zero
determinant, producing a non-finite value: a division by zero is performed
while deciding the parallel case, contrary to the claim. -/
theorem c8_counterexample :
    lineDet 0 0 1 0 0 1 1 1 = 0 ∧
    lineLineInterDen 0 0 1 0 0 1 1 1 = jdiv (some 1) (some 0) ∧
    jdiv (some 1) (some 0) = none := by
  decide

/-- C9: on the polygon (0,5), (0,0), (1,1) the minimum x is 0, attained by
the vertices (0,5) and (0,0), of which (0,0) has the smaller y; yet
convexHull emits (0,5) first: the leftBottom helper starts at index 0 and
its minimum-y tie-break never fires, because it reads this.accuracy from a
plain function call where this is not the polygon, making the guard a
comparison with undefined. -/
theorem c9_first_emitted_eval :
    leftBottom [((0 : ℚ), (5 : ℚ)), (0, 0), (1, 1)] = 0 ∧
    (convexHullPts [((0 : ℚ), (5 : ℚ)), (0, 0), (1, 1)] 10).head? = some (0, 5) ∧
    ((0 : ℚ), (0 : ℚ)) ∈ [((0 : ℚ), (5 : ℚ)), (0, 0), (1, 1)] ∧
    (∀ p ∈ [((0 : ℚ), (5 : ℚ)), (0, 0), (1, 1)], (0 : ℚ) ≤ p.1) ∧
    ((0 : ℚ) < (5 : ℚ)) := by
  decide

/-- C10: sortCW only reorders: the sorted vertex list is a permutation of
the input, so the multiset of coordinate pairs and the vertex count are
unchanged; the union step that concatenates and re-sorts therefore loses no
vertices. -/
theorem c10_sortCW_permutation (v : List Pt) :
    Multiset.ofList (sortCW v) = Multiset.ofList v ∧ (sortCW v).length = v.length := by
  have hp : (sortCW v).Perm v := by
    unfold sortCW
    refine ((List.mergeSort_perm _ sortCWle).map Prod.snd).trans ?_
    rw [List.map_map]
    show (List.map (fun p => p) v).Perm v
    rw [List.map_id']
  exact ⟨Multiset.coe_eq_coe.mpr hp, hp.length_eq⟩

/-- C7: simplify is idempotent: for every tolerance t and every nonempty
vertex list, applying simplify twice with the same t yields the result of
applying it once.  The radial pre-filter leaves the first-pass output fixed
(adjacent retained vertices are spread at least the tolerance apart except
possibly at the forced-back last vertex, which the filter re-appends), and
the recursive split re-marks exactly the previously retained vertices. -/
theorem c7_simplify_idempotent (t : ℚ) (v : List Pt) (hv : v ≠ []) :
    simplify t (simplify t v) = simplify t v := by
  have h1 := simplify_eq_filter t v
  set F := rfilter (t * t) v with hF
  set k := F.length with hk
  have hkpos : 0 < k := by
    rw [hk]
    exact List.length_pos.mpr (rfilter_ne_nil _ _ hv)
  obtain ⟨M, tree, hredM⟩ :=
    reduce_eq_union t F (k - 1) 0 (k - 1) (by omega) ({0, k - 1} : Finset ℕ)
  rw [hredM] at h1
  set K := ({0, k - 1} : Finset ℕ) ∪ M with hKdef
  have hKins : K = insert 0 (insert (k - 1) M) := by
    rw [hKdef]
    ext x
    simp [Finset.mem_insert]
  have hMsub := DPTree_subset t F tree
  have h0K : (0 : ℕ) ∈ K := by rw [hKins]; exact Finset.mem_insert_self _ _
  have hk1K : k - 1 ∈ K := by
    rw [hKins]
    exact Finset.mem_insert_of_mem (Finset.mem_insert_self _ _)
  have hKlt : ∀ x ∈ K, x < k := by
    intro x hx
    rw [hKins] at hx
    rcases Finset.mem_insert.mp hx with rfl | hx
    · omega
    · rcases Finset.mem_insert.mp hx with rfl | hx
      · omega
      · have := hMsub x hx
        omega
  set posL := (List.range k).filter (fun i => i ∈ K) with hposL
  set n2 := posL.length with hn2
  have hn2pos : 0 < n2 := by
    rw [hn2, hposL]
    exact posL_len_pos k K h0K hkpos
  have hfirst : posL.getD 0 0 = 0 := by
    rw [hposL]
    exact posL_first k K h0K hkpos
  have hlast : posL.getD (n2 - 1) 0 = k - 1 := by
    rw [hposL, hn2]
    exact posL_last k K hk1K hkpos
  set O := posL.map (fun i => F.getD i (0, 0)) with hO
  have hOlen : O.length = n2 := by rw [hO, List.length_map, hn2]
  have hsv : simplify t v = O := h1
  have hOne : O ≠ [] := by
    intro hnil
    rw [hnil] at hOlen
    simp at hOlen
    omega
  -- every pair of consecutive marks except the final one is spread
  have hFsp := rfilter_spread (t * t) v
  rw [← hF] at hFsp
  have hchain : List.Chain' (fun a b => t * t ≤ magDiff2vec b a) O.dropLast := by
    rw [List.chain'_iff_get]
    intro i hi
    have hdll : O.dropLast.length = n2 - 1 := by
      rw [List.length_dropLast, hOlen]
    rw [hdll] at hi
    have hin2 : i + 1 < n2 - 1 := by omega
    have hi1 : i < n2 := by omega
    have hi2 : i + 1 < n2 := by omega
    set x := posL.getD i 0 with hx
    set y := posL.getD (i + 1) 0 with hy
    have hxy : x < y := by
      rw [hx, hy, hposL]
      exact posL_getD_mono k K i (i + 1) (by omega) (by rw [← hposL, ← hn2]; exact hi2)
    have hxm : x < k ∧ x ∈ K := by
      rw [hx, hposL]
      exact posL_getD_mem k K i (by rw [← hposL, ← hn2]; exact hi1)
    have hym : y < k ∧ y ∈ K := by
      rw [hy, hposL]
      exact posL_getD_mem k K (i + 1) (by rw [← hposL, ← hn2]; exact hi2)
    have hyk1 : y < k - 1 := by
      have := posL_getD_mono k K (i + 1) (n2 - 1) (by omega)
        (by rw [← hposL, ← hn2]; omega)
      rw [← hposL] at this
      rw [← hy] at this
      rw [hlast] at this
      exact this
    have hnob : ∀ z ∈ M, ¬(x < z ∧ z < y) := by
      rintro z hz ⟨hz1, hz2⟩
      have hzK : z ∈ K := by
        rw [hKins]
        exact Finset.mem_insert_of_mem (Finset.mem_insert_of_mem hz)
      have hzk : z < k := hKlt z hzK
      obtain ⟨r, hr, hrval⟩ := posL_surj k K z hzk hzK
      rw [← hposL] at hr hrval
      have hir : i < r := by
        apply posL_getD_mono_inv k K i r (by rw [← hposL, ← hn2]; exact hi1)
          (by rw [← hposL]; exact hr)
        rw [← hposL]
        rw [hrval, ← hx]
        exact hz1
      have hri : r < i + 1 := by
        apply posL_getD_mono_inv k K r (i + 1) (by rw [← hposL]; exact hr)
          (by rw [← hposL, ← hn2]; exact hi2)
        rw [← hposL]
        rw [hrval, ← hy]
        exact hz2
      omega
    have hxmem : x ∈ insert 0 (insert (k - 1) M) := by rw [← hKins]; exact hxm.2
    have hymem : y ∈ insert 0 (insert (k - 1) M) := by rw [← hKins]; exact hym.2
    have hpair := DPTree_pairs t F tree (by omega) x y hxmem hymem hxy hnob
    -- the goal elements are the chain vertices at x and y
    have hiO : i < O.length := by rw [hOlen]; omega
    have hi1O : i + 1 < O.length := by rw [hOlen]; omega
    have hgoal : O.dropLast.get ⟨i, by rw [hdll]; omega⟩ = F.getD x (0, 0) := by
      rw [List.get_eq_getElem, List.getElem_dropLast]
      have : O[i] = O.getD i (0, 0) :=
        (List.getD_eq_getElem O (0, 0) hiO).symm
      rw [this, hO]
      rw [getD_map_getD F posL i (by rw [← hn2]; exact hi1)]
    have hgoal2 : O.dropLast.get ⟨i + 1, by rw [hdll]; omega⟩ = F.getD y (0, 0) := by
      rw [List.get_eq_getElem, List.getElem_dropLast]
      have : O[i + 1] = O.getD (i + 1) (0, 0) :=
        (List.getD_eq_getElem O (0, 0) hi1O).symm
      rw [this, hO]
      rw [getD_map_getD F posL (i + 1) (by rw [← hn2]; exact hi2)]
    rw [hgoal, hgoal2]
    rcases hpair with heq | hlt | ⟨h0, hke⟩
    · -- adjacent in the filtered chain: spread by the radial filter
      have hxk2 : x < k - 1 - 1 := by omega
      have hxF : x < F.length := by omega
      have hx1F : x + 1 < F.length := by omega
      have hbx : x < F.dropLast.length := by
        rw [List.length_dropLast, ← hk]
        omega
      have hbx1 : x + 1 < F.dropLast.length := by
        rw [List.length_dropLast, ← hk]
        omega
      have hch := List.chain'_iff_get.mp hFsp x (by
        rw [List.length_dropLast, ← hk]
        omega)
      have hg1 : F.dropLast.get ⟨x, hbx⟩ = F.getD x (0, 0) := by
        have e0 : F.dropLast.get ⟨x, hbx⟩ = F.dropLast[x] := rfl
        rw [e0, List.getElem_dropLast]
        exact (List.getD_eq_getElem F (0, 0) hxF).symm
      have hg2 : F.dropLast.get ⟨x + 1, hbx1⟩ = F.getD (x + 1) (0, 0) := by
        have e0 : F.dropLast.get ⟨x + 1, hbx1⟩ = F.dropLast[x + 1] := rfl
        rw [e0, List.getElem_dropLast]
        exact (List.getD_eq_getElem F (0, 0) hx1F).symm
      rw [hg1, hg2] at hch
      rw [heq]
      exact hch
    · exact le_of_lt hlt
    · omega
  -- the radial filter fixes the first-pass output
  have hfp : rfilter (t * t) O = O := rfilter_fixed (t * t) O hOne hchain
  -- second pass
  have h2 := simplify_eq_filter t O
  rw [hfp] at h2
  rw [hOlen] at h2
  -- apply the mirroring lemma to the root tree
  have hmir := mir t F K posL O hposL hO tree
    (fun x hx => by
      rw [hKins]
      exact Finset.mem_insert_of_mem (Finset.mem_insert_of_mem hx))
    (fun x hxK hx1 hx2 => by
      rw [hKins] at hxK
      rcases Finset.mem_insert.mp hxK with rfl | hxK
      · omega
      · rcases Finset.mem_insert.mp hxK with rfl | hxK
        · omega
        · exact hxK)
    0 (n2 - 1) (by omega) (by omega) hfirst hlast ({0, n2 - 1} : Finset ℕ)
  obtain ⟨hkeysub, hmarks⟩ := hmir
  set K2 := reduce t O 0 (n2 - 1) ({0, n2 - 1} : Finset ℕ) with hK2
  have hall : ∀ i, i < n2 → i ∈ K2 := by
    intro i hi
    rcases Nat.eq_zero_or_pos i with rfl | hipos
    · exact hkeysub (by simp)
    · rcases Nat.lt_or_ge i (n2 - 1) with hilt | hige
      · -- interior position: its mark is interior, hence in M
        have hxm : posL.getD i 0 < k ∧ posL.getD i 0 ∈ K := by
          rw [hposL]
          exact posL_getD_mem k K i (by rw [← hposL, ← hn2]; exact hi)
        have hgt : 0 < posL.getD i 0 := by
          have := posL_getD_mono k K 0 i hipos (by rw [← hposL, ← hn2]; exact hi)
          rw [← hposL] at this
          rw [hfirst] at this
          exact this
        have hltk : posL.getD i 0 < k - 1 := by
          have := posL_getD_mono k K i (n2 - 1) hilt (by rw [← hposL, ← hn2]; omega)
          rw [← hposL] at this
          rw [hlast] at this
          exact this
        have hinM : posL.getD i 0 ∈ M := by
          have hxK := hxm.2
          rw [hKins] at hxK
          rcases Finset.mem_insert.mp hxK with h0 | hxK
          · omega
          · rcases Finset.mem_insert.mp hxK with h0 | hxK
            · omega
            · exact hxK
        exact hmarks i hi hinM
      · have : i = n2 - 1 := by omega
        subst this
        exact hkeysub (by simp)
  -- extraction with a full key is the identity
  rw [hsv]
  rw [h2]
  have hfilter : (List.range n2).filter (fun i => i ∈ K2) = List.range n2 := by
    apply List.filter_eq_self.mpr
    intro a ha
    rw [List.mem_range] at ha
    exact decide_eq_true (hall a ha)
  rw [hfilter]
  have hmapr : (List.range n2).map (fun i => O.getD i (0, 0)) = O := by
    have := map_getD_range O
    rw [hOlen] at this
    exact this
  exact hmapr

/-- C7, witness: idempotence of simplify at tolerance 10 on a concrete
five-vertex polyline. -/
theorem c7_witness :
    simplify 10 (simplify 10 [((0 : ℚ), (0 : ℚ)), (4, 1), (8, 1), (30, 0), (30, 30)]) =
      simplify 10 [((0 : ℚ), (0 : ℚ)), (4, 1), (8, 1), (30, 0), (30, 30)] :=
  c7_simplify_idempotent 10 _ (by decide)
